import Mathlib

/-!
# Verification of `dist.py` — a Minecraft-mod distribution classifier

This file gives a shallow embedding of the classification engine of
`src/dist.py` and proves properties of it.  Text (manifest contents, entry
names, compiled-code bytes) is modelled as `List Char`; the specific Python
regular expressions used by the source are embedded as explicit scanning
functions that reproduce `re.search`/`re.findall` semantics (leftmost match,
lazy `+?`/`*?` via first-stop scanning, greedy `*` with backtracking via
try-longer-first recursion).  Machine strings carry no arithmetic here, so
bytes are represented by characters; `str.upper`/`str.lower` are modelled
ASCII-wise by `Char.toUpper`/`Char.toLower` applied pointwise.
-/

set_option maxHeartbeats 1000000

namespace DistChecker

/-- The single-quote character (written via its code point to keep source
clean of quote-escaping). -/
def squote : Char := Char.ofNat 39

/-- The backslash character. -/
def bslash : Char := Char.ofNat 92

/-- A quote character: what the regex class quote-or-quote (double or single) accepts. -/
def isQuote (c : Char) : Bool := c == '"' || c == squote

/-- Python `\s` (ASCII part): space, tab, newline, carriage return, vertical
tab, form feed. -/
def pyWS (c : Char) : Bool :=
  c == ' ' || c == '\t' || c == '\n' || c == '\r' ||
  c == Char.ofNat 11 || c == Char.ofNat 12

/-- Case-insensitive character comparison, as `re.IGNORECASE` does for the
ASCII letters appearing in the patterns of the source. -/
def ciEq (a b : Char) : Bool := a.toLower == b.toLower

/-- Match a literal pattern at the head of the input (case-insensitively when
`ci` is true); return the rest of the input on success. -/
def matchLit (ci : Bool) : List Char → List Char → Option (List Char)
  | [], l => some l
  | _ :: _, [] => none
  | p :: ps, c :: cs =>
    if (if ci then ciEq p c else p == c) then matchLit ci ps cs else none

/-- Greedily drop `\s*`. -/
def dropWS : List Char → List Char
  | [] => []
  | c :: cs => if pyWS c then dropWS cs else c :: cs

/-- Substring test: does `pat` occur contiguously inside `l`?  This is
the Python `in` operator on strings. -/
def hasSub (pat : List Char) : List Char → Bool
  | [] => pat.isPrefixOf []
  | l@(_ :: t) => pat.isPrefixOf l || hasSub pat t

/-- The lazy part of the regex dot-plus-lazy-then-quote after its first (mandatory) character:
stop at the first quote character, fail at a newline or at end of input,
otherwise absorb the character into the group. -/
def lazyToQuote : List Char → Option (List Char)
  | [] => none
  | c :: rest =>
    if isQuote c then some []
    else if c == '\n' then none
    else (lazyToQuote rest).map (c :: ·)

/-- The regex fragment dot-plus-lazy followed by a closing quote, where the
input starts just after the opening quote: at least one non-newline character,
lazily extended until a closing quote of either kind (the regex quote class
matches both, so the closing quote need not match the opening one).
Returns the group. -/
def matchValue : List Char → Option (List Char)
  | [] => none
  | c :: rest => if c == '\n' then none else (lazyToQuote rest).map (c :: ·)

/-- Match the pattern `name \s* = \s* quote (.+?) quote` at the current
position, with `name` compared case-sensitively or not according to `ci`.
This is the shape of the modId and side extraction regexes of
`get_mod_metadata` in dist.py (lines 16 and 30). -/
def matchKeyValueAt (ci : Bool) (name : List Char) (l : List Char) :
    Option (List Char) :=
  match matchLit ci name l with
  | none => none
  | some l1 =>
    match dropWS l1 with
    | '=' :: l2 =>
      match dropWS l2 with
      | q :: l3 => if isQuote q then matchValue l3 else none
      | [] => none
    | _ => none

/-- Leftmost `re.search` for a key-value pattern: try every position from the
left, first success wins (returning the captured group). -/
def searchKeyValue (ci : Bool) (name : List Char) : List Char → Option (List Char)
  | [] => matchKeyValueAt ci name []
  | l@(_ :: t) => (matchKeyValueAt ci name l).orElse (fun _ => searchKeyValue ci name t)

/-- The first captured group of the case-sensitive regex
`modId \s* = \s* quote (.+?) quote` over a text, or `none` — the modId
extraction of `get_mod_metadata` (dist.py line 16 and, per block, line 23). -/
def searchModId (l : List Char) : Option (List Char) :=
  searchKeyValue false ("modId".data) l

/-- The first captured group of the case-insensitive regex
`side \s* = \s* quote (.+?) quote` over a dependency block (dist.py line 30). -/
def searchSide (l : List Char) : Option (List Char) :=
  searchKeyValue true ("side".data) l

/-- Match `displayTest \s* = \s* quote CLIENT_ONLY quote` (all literals
case-insensitive) at the current position — dist.py line 101. -/
def matchDisplayTestAt (l : List Char) : Bool :=
  match matchLit true ("displaytest".data) l with
  | none => false
  | some l1 =>
    match dropWS l1 with
    | '=' :: l2 =>
      match dropWS l2 with
      | q :: l3 =>
        isQuote q &&
          (match matchLit true ("client_only".data) l3 with
           | some (q2 :: _) => isQuote q2
           | _ => false)
      | [] => false
    | _ => false

/-- Leftmost search for the displayTest pattern. -/
def searchDisplayTest : List Char → Bool
  | [] => false
  | l@(_ :: t) => matchDisplayTestAt l || searchDisplayTest t

/-- Lazy body of a triple-quoted string: absorb characters (any character,
as `[\s\S]` does) until the first occurrence of three closing quotes `q q q`;
fail if the text ends first.  Returns the group content. -/
def tripleBody (q : Char) : List Char → Option (List Char)
  | a :: b :: c :: rest =>
    if a == q && b == q && c == q then some []
    else (tripleBody q (b :: c :: rest)).map (a :: ·)
  | _ => none

/-- Greedy body of a single- or double-quoted string with escape handling:
the regex content class is, per the source, a repetition of either a
backslash followed by any non-newline character, or any single character
other than a double quote or a backslash (note: the class excludes the
DOUBLE quote even inside single-quoted strings — exactly as written in
dist.py line 108).  Greedy with backtracking: prefer to extend the content,
fall back to closing at `close`. -/
def escBody (close : Char) : List Char → Option (List Char)
  | [] => none
  | a :: rest =>
    let viaUnit : Option (List Char) :=
      if a == bslash then
        match rest with
        | [] => none
        | b :: rest2 =>
          if b == '\n' then none
          else (escBody close rest2).map (fun t => a :: b :: t)
      else if a == '"' then none
      else (escBody close rest).map (fun t => a :: t)
    viaUnit.orElse (fun _ => if a == close then some [] else none)

/-- The four-way alternation of the description regex value (dist.py
line 108), tried in the written order: triple-double-quoted, triple-single-
quoted, double-quoted, single-quoted.  Input starts where the value starts. -/
def matchDescValue (l : List Char) : Option (List Char) :=
  (match l with
   | '"' :: '"' :: '"' :: r => tripleBody '"' r
   | _ => none).orElse fun _ =>
  (match l with
   | a :: b :: c :: r =>
     if a == squote && b == squote && c == squote then tripleBody squote r else none
   | _ => none).orElse fun _ =>
  (match l with
   | '"' :: r => escBody '"' r
   | _ => none).orElse fun _ =>
  (match l with
   | a :: r => if a == squote then escBody squote r else none
   | _ => none)

/-- Match `description \s* = \s* <value>` (case-insensitive) at the current
position. -/
def matchDescAt (l : List Char) : Option (List Char) :=
  match matchLit true ("description".data) l with
  | none => none
  | some l1 =>
    match dropWS l1 with
    | '=' :: l2 => matchDescValue (dropWS l2)
    | _ => none

/-- Leftmost search for the description pattern (dist.py line 108). -/
def searchDescription : List Char → Option (List Char)
  | [] => none
  | l@(_ :: t) => (matchDescAt l).orElse (fun _ => searchDescription t)

/-! ## Dependency blocks

The source splits dependency blocks out of the manifest with
`re.findall` on the pattern: literal `[[dependencies.`, then a lazy
non-empty run of non-newline characters up to `]]`, then a lazy non-empty
run of arbitrary characters, stopped by a lookahead that accepts either a
newline followed by `[[`, or the end-of-text anchor (which in Python also
matches just before a single trailing newline). -/

/-- Lazy scan for the closing `]]` of a dependency-table-array header, after
at least one non-newline character has been consumed by the caller.  Returns
the consumed characters (including the `]]`) and the rest. -/
def hdrClose : List Char → Option (List Char × List Char)
  | a :: b :: rest =>
    if a == ']' && b == ']' then some ([a, b], rest)
    else if a == '\n' then none
    else (hdrClose (b :: rest)).map (fun p => (a :: p.1, p.2))
  | _ => none

/-- Match `[[dependencies.` then lazily `.+?]]` at the current position;
returns the full header text and the rest. -/
def matchHdrAt (l : List Char) : Option (List Char × List Char) :=
  match matchLit false ("[[dependencies.".data) l with
  | none => none
  | some r =>
    match r with
    | [] => none
    | c :: r2 =>
      if c == '\n' then none
      else
        (hdrClose r2).map
          (fun p => (("[[dependencies.".data) ++ (c :: p.1), p.2))

/-- The lookahead: true when the remaining text starts with a newline
followed by `[[`, is empty (end anchor), or is exactly one newline (the end
anchor also matches just before a trailing newline in Python). -/
def stopOK : List Char → Bool
  | [] => true
  | ['\n'] => true
  | '\n' :: '[' :: '[' :: _ => true
  | _ => false

/-- Lazy scan of the block body after its first (mandatory) character: stop
at the first position satisfying the lookahead, otherwise absorb a character.
Always succeeds because the end of text satisfies the lookahead. -/
def bodyScan : List Char → List Char × List Char
  | [] => ([], [])
  | c :: rest =>
    if stopOK (c :: rest) then ([], c :: rest)
    else
      let p := bodyScan rest
      (c :: p.1, p.2)

/-- The block body `[\s\S]+?` with its lookahead: at least one character,
then lazily up to the first lookahead position. -/
def matchBody : List Char → Option (List Char × List Char)
  | [] => none
  | c :: rest =>
    let p := bodyScan rest
    some (c :: p.1, p.2)

/-- One step of `re.findall`: fuel-indexed scan (fuel bounds the number of
positions still to examine, which makes the recursion structural).  At each
position, if the full block pattern matches, emit the block and continue
after it (non-overlapping matches); otherwise advance one character. -/
def findBlocksGo : Nat → List Char → List (List Char)
  | 0, _ => []
  | _ + 1, [] => []
  | fuel + 1, l@(_ :: t) =>
    match matchHdrAt l with
    | some (hdr, afterHdr) =>
      match matchBody afterHdr with
      | some (body, rest) => (hdr ++ body) :: findBlocksGo fuel rest
      | none => findBlocksGo fuel t
    | none => findBlocksGo fuel t

/-- All dependency blocks of a manifest text, in order — the `re.findall`
of dist.py line 20. -/
def findDepBlocks (l : List Char) : List (List Char) :=
  findBlocksGo l.length l

/-- A declared dependency: modId plus side annotation.  The side is stored
exactly as the source stores it: the uppercased matched text when a side
value was matched, the literal `BOTH` otherwise. -/
structure Dependency where
  modId : String
  side : String
deriving DecidableEq, Repr

/-- Parsed manifest metadata. -/
structure Metadata where
  modId : Option String
  dependencies : List Dependency
deriving DecidableEq, Repr

/-- The per-block body of the loop in `get_mod_metadata` (dist.py lines
22-34): a block without a matchable modId is discarded; the side defaults to
`BOTH` when no side pattern matches, and is the uppercased matched group
otherwise (unrecognized values are kept, uppercased, not folded to BOTH). -/
def parseDepBlock (block : List Char) : Option Dependency :=
  match searchModId block with
  | none => none
  | some depId =>
    let side : String :=
      match searchSide block with
      | some s => String.mk (s.map Char.toUpper)
      | none => "BOTH"
    some ⟨String.mk depId, side⟩

/-- `get_mod_metadata` (dist.py lines 12-36).  The source also receives the
open archive but never reads it; only the manifest text is used. -/
def get_mod_metadata (toml_content : List Char) : Metadata :=
  { modId := (searchModId toml_content).map String.mk,
    dependencies := (findDepBlocks toml_content).filterMap parseDepBlock }

/-! ## Archives and the Signature Scanner -/

/-- An opened archive: its central directory as an ordered list of entry
names, each paired with its content when readable and `none` when reading
the entry raises (the scanner skips such entries).  Byte sequences carry no
arithmetic in the source — only substring tests — so entry bytes are
modelled as character lists. -/
structure Archive where
  entries : List (String × Option (List Char))
deriving DecidableEq, Repr

/-- `zf.namelist()`. -/
def Archive.namelist (ar : Archive) : List String :=
  ar.entries.map Prod.fst

/-- `zf.open(name).read()`, with `none` for a read failure. -/
def Archive.readEntry (ar : Archive) (name : String) : Option (List Char) :=
  (ar.entries.find? (fun p => p.1 == name)).bind Prod.snd

/-- The eight boolean signals of `analyze_code_references`. -/
structure Findings where
  has_level_isclientside : Bool
  has_distexecutor_client : Bool
  has_distexecutor_server : Bool
  has_onlyin_client : Bool
  has_onlyin_server : Bool
  has_fmlenvironment_dist : Bool
  has_generic_client_ref : Bool
  has_server_ref : Bool
deriving DecidableEq, Repr

/-- All signals start false (dist.py lines 42-51). -/
def initFindings : Findings :=
  ⟨false, false, false, false, false, false, false, false⟩

/-- Marker byte sequences (dist.py lines 54-63). -/
def isclientside_sig : List Char := "isClientSide".data

def level_class_sig : List Char := "Lnet/minecraft/world/level/Level;".data

def distexecutor_sig : List Char := "Lnet/minecraftforge/fml/DistExecutor;".data

def onlyin_sig : List Char := "Lnet/minecraftforge/api/distmarker/OnlyIn;".data

def dist_sig : List Char := "Lnet/minecraftforge/api/distmarker/Dist;".data

def client_enum_sig : List Char := "CLIENT".data

def server_enum_sig : List Char := "SERVER".data

def fmlenv_sig : List Char := "Lnet/minecraftforge/fml/loading/FMLEnvironment;".data

def generic_client_sig : List Char := "net/minecraft/client/".data

def server_sig : List Char := "net/minecraft/server/level/".data

/-- The per-entry update of the findings (dist.py lines 71-91).  The source
writes each update as `if not findings[k] and cond: findings[k] = True`,
which is exactly `k := k || cond`; the nested guards around the
DistExecutor and OnlyIn groups distribute into conjunctions of the
respective substring tests. -/
def scanEntry (content : List Char) (f : Findings) : Findings where
  has_level_isclientside :=
    f.has_level_isclientside ||
      (hasSub isclientside_sig content && hasSub level_class_sig content)
  has_distexecutor_client :=
    f.has_distexecutor_client ||
      (hasSub distexecutor_sig content && hasSub dist_sig content &&
        hasSub client_enum_sig content)
  has_distexecutor_server :=
    f.has_distexecutor_server ||
      (hasSub distexecutor_sig content && hasSub dist_sig content &&
        hasSub server_enum_sig content)
  has_onlyin_client :=
    f.has_onlyin_client ||
      (hasSub onlyin_sig content && hasSub dist_sig content &&
        hasSub client_enum_sig content)
  has_onlyin_server :=
    f.has_onlyin_server ||
      (hasSub onlyin_sig content && hasSub dist_sig content &&
        hasSub server_enum_sig content)
  has_fmlenvironment_dist :=
    f.has_fmlenvironment_dist || hasSub fmlenv_sig content
  has_generic_client_ref :=
    f.has_generic_client_ref || hasSub generic_client_sig content
  has_server_ref :=
    f.has_server_ref || hasSub server_sig content

/-- `all(f for f in findings.values() if isinstance(f, bool))` — every signal
is true (dist.py line 93). -/
def allFound (f : Findings) : Bool :=
  f.has_level_isclientside && f.has_distexecutor_client &&
  f.has_distexecutor_server && f.has_onlyin_client && f.has_onlyin_server &&
  f.has_fmlenvironment_dist && f.has_generic_client_ref && f.has_server_ref

/-- Lowercased suffix test for `.class` entries (dist.py line 65). -/
def isClassName (n : String) : Bool :=
  (".class".data).isSuffixOf (n.data.map Char.toLower)

/-- The compiled-code entries of an archive, in archive order. -/
def class_files (ar : Archive) : List String :=
  ar.namelist.filter isClassName

/-- The scanning loop of `analyze_code_references` (dist.py lines 66-96):
skip unreadable entries, update the findings per entry, and break out of the
loop as soon as every signal is true. -/
def scanLoop (ar : Archive) : List String → Findings → Findings
  | [], f => f
  | name :: rest, f =>
    match ar.readEntry name with
    | none => scanLoop ar rest f
    | some content =>
      let f2 := scanEntry content f
      if allFound f2 then f2 else scanLoop ar rest f2

/-- `analyze_code_references` (dist.py lines 38-97). -/
def analyze_code_references (ar : Archive) : Findings :=
  scanLoop ar (class_files ar) initFindings

/-- Modelled from the spec: the same scan without the short-circuit — every
compiled-code entry is visited unconditionally.  Used to state that the
short-circuit of the source is behaviour-preserving (claim C7). -/
def analyzeAllEntries (ar : Archive) : Findings :=
  (class_files ar).foldl
    (fun f name =>
      match ar.readEntry name with
      | none => f
      | some content => scanEntry content f)
    initFindings

/-- Pointwise boolean implication between two findings records: every signal
set in `f` is still set in `g`. -/
def findingsLE (f g : Findings) : Bool :=
  (!f.has_level_isclientside || g.has_level_isclientside) &&
  (!f.has_distexecutor_client || g.has_distexecutor_client) &&
  (!f.has_distexecutor_server || g.has_distexecutor_server) &&
  (!f.has_onlyin_client || g.has_onlyin_client) &&
  (!f.has_onlyin_server || g.has_onlyin_server) &&
  (!f.has_fmlenvironment_dist || g.has_fmlenvironment_dist) &&
  (!f.has_generic_client_ref || g.has_generic_client_ref) &&
  (!f.has_server_ref || g.has_server_ref)

/-! ## Initial Classifier -/

/-- The five classification categories.  The source represents them by the
Chinese strings 僅客戶端 (client only), 僅伺服器端 (server only), 雙端
(universal / both sides), API / 函式庫 (API or library), 錯誤 (error). -/
inductive Classification where
  | CLIENT_ONLY
  | SERVER_ONLY
  | UNIVERSAL
  | API_LIBRARY
  | ERROR
deriving DecidableEq, Repr

/-- The fixed justification templates produced by `initial_classify` and the
error branch of `main`, one constructor per `return` site, carrying the
error text for the unreadable-archive case.  Each constructor corresponds
to one literal reason string of the source (dist.py lines 102, 105, 113,
133-137, 142, 144, 147, 150, 152 and 282). -/
inductive InitialReason where
  | displayTestClientOnly
  | exportsDefined
  | descriptionApiLibrary
  | dualSideIsClientSide
  | dualSideBothFeatures
  | clientOnlyNoAssets
  | serverOnlyNoAssets
  | universalAssetsClient
  | apiFolderWithAssets
  | universalAssetsFallback
  | readErrorJar (errMsg : String)
deriving DecidableEq, Repr

/-- The exports test of dist.py line 104: a literal (case-sensitive)
substring test. -/
def hasExportsTable (toml_content : List Char) : Bool :=
  hasSub ("[[exports]]".data) toml_content

/-- The description test of dist.py lines 107-112: extract the description
string (empty when the regex does not match), then — only when it is
non-empty, mirroring the Python truthiness test — look for `api` or
`library` in its lowercasing. -/
def descriptionMentionsApi (toml_content : List Char) : Bool :=
  let description_str := (searchDescription toml_content).getD []
  !description_str.isEmpty &&
    (hasSub ("api".data) (description_str.map Char.toLower) ||
     hasSub ("library".data) (description_str.map Char.toLower))

/-- The asset/signal decision chain of `initial_classify` (dist.py lines
115-152), reached only when none of the three manifest rules matched. -/
def classify_by_signals (ar : Archive) (namelist : List String) :
    Classification × InitialReason :=
  let code_analysis := analyze_code_references ar
  let has_assets := namelist.any (fun n => ("assets/".data).isPrefixOf n.data)
  let has_api_folder :=
    namelist.any (fun n => hasSub ("/api/".data) (n.data.map Char.toLower))
  let has_client_features :=
    code_analysis.has_distexecutor_client ||
    code_analysis.has_onlyin_client ||
    code_analysis.has_generic_client_ref ||
    code_analysis.has_fmlenvironment_dist
  let has_server_features :=
    code_analysis.has_distexecutor_server ||
    code_analysis.has_onlyin_server ||
    code_analysis.has_server_ref
  let has_logical_side_check := code_analysis.has_level_isclientside
  if has_logical_side_check || (has_client_features && has_server_features) then
    (.UNIVERSAL,
      if has_logical_side_check then .dualSideIsClientSide
      else .dualSideBothFeatures)
  else if !has_assets then
    (if has_client_features then (.CLIENT_ONLY, .clientOnlyNoAssets)
     else (.SERVER_ONLY, .serverOnlyNoAssets))
  else if has_client_features then (.UNIVERSAL, .universalAssetsClient)
  else if has_api_folder then (.API_LIBRARY, .apiFolderWithAssets)
  else (.UNIVERSAL, .universalAssetsFallback)

/-- `initial_classify` (dist.py lines 99-152): the ordered decision chain
over the manifest, falling through to the asset/signal rules. -/
def initial_classify (ar : Archive) (toml_content : List Char)
    (namelist : List String) : Classification × InitialReason :=
  if searchDisplayTest toml_content then (.CLIENT_ONLY, .displayTestClientOnly)
  else if hasExportsTable toml_content then (.API_LIBRARY, .exportsDefined)
  else if descriptionMentionsApi toml_content then
    (.API_LIBRARY, .descriptionApiLibrary)
  else classify_by_signals ar namelist

/-! ## Records, dictionaries and the Dependency Corrector -/

/-- The two fixed correction templates of the corrector (dist.py lines 307
and 319), each citing the dependency modId interpolated into the source
string: 其依賴項 X 被明確要求為 side=BOTH, and 它依賴了一個雙端/API Mod X. -/
inductive CorrectionReason where
  | requiredBothSides (depId : String)
  | dependsOnUniversal (depId : String)
deriving DecidableEq, Repr

/-- One record of `all_mods_info` (dist.py lines 269-277; the error branch
on lines 281-284 fills the same shape with no modId, no dependencies and no
correction reason). -/
structure ModRecord where
  modId : Option String
  dependencies : List Dependency
  initial_classification : Classification
  initial_reason : InitialReason
  final_classification : Classification
  was_corrected : Bool
  correction_reason : Option CorrectionReason
deriving DecidableEq, Repr

/-- The record stored for an archive that fails to open (dist.py lines
281-284). -/
def errorRecord (errMsg : String) : ModRecord :=
  { modId := none, dependencies := [],
    initial_classification := .ERROR,
    initial_reason := .readErrorJar errMsg,
    final_classification := .ERROR,
    was_corrected := false, correction_reason := none }

/-- A Python dict modelled as an association list in insertion order. -/
abbrev Dict (α : Type) : Type := List (String × α)

/-- Dict lookup (`d.get(k)` / `d[k]`). -/
def dget {α : Type} (d : Dict α) (k : String) : Option α :=
  (List.find? (fun p => p.1 == k) d).map Prod.snd

/-- Dict write (`d[k] = v`): overwrite in place when the key exists, append
otherwise. -/
def dset {α : Type} (d : Dict α) (k : String) (v : α) : Dict α :=
  if (List.find? (fun p => p.1 == k) d).isSome then
    List.map (fun p => if p.1 == k then (k, v) else p) d
  else d ++ [(k, v)]

/-- The keys of a dict, in insertion order. -/
def dkeys {α : Type} (d : Dict α) : List String :=
  List.map Prod.fst d

/-- `IGNORED_DEPENDENCIES` (dist.py line 253). -/
def IGNORED_DEPENDENCIES : List String := ["minecraft", "forge"]

/-- Pointwise ASCII uppercasing, the model of the Python `str.upper`
applied by the corrector on dist.py line 302. -/
def pyUpper (s : String) : String := String.mk (s.data.map Char.toUpper)

/-- Does this dependency resolve — through the modId index, then through
the record map — to a record whose CURRENT final classification is
UNIVERSAL or API_LIBRARY?  This packages the resolution chain of dist.py
lines 312-317 (including the Python falsiness test on the looked-up
filename). -/
def depQualifies (idx : Dict String) (amap : Dict ModRecord)
    (dep : Dependency) : Bool :=
  match dget idx dep.modId with
  | none => false
  | some dep_filename =>
    if dep_filename == "" then false
    else
      match dget amap dep_filename with
      | none => false
      | some dep_info =>
        dep_info.final_classification == Classification.UNIVERSAL ||
        dep_info.final_classification == Classification.API_LIBRARY

/-- The dependency loop of the corrector for one record (dist.py lines
296-325): iterate the declared dependencies in order; skip ignored modIds;
a side of BOTH (after uppercasing) corrects immediately; otherwise resolve
through the index and the record map and correct when the resolved record
is currently UNIVERSAL or API_LIBRARY; a correction breaks the loop.
Returns the (possibly corrected) record and whether a correction was made
(the `correction_made_for_this_mod` flag of the source). -/
def correctDeps (idx : Dict String) (amap : Dict ModRecord)
    (info : ModRecord) : List Dependency → ModRecord × Bool
  | [] => (info, false)
  | dep :: rest =>
    if IGNORED_DEPENDENCIES.contains dep.modId then
      correctDeps idx amap info rest
    else
      let dep_side := pyUpper dep.side
      if dep_side == "BOTH" then
        ({ info with
            final_classification := .UNIVERSAL,
            correction_reason := some (.requiredBothSides dep.modId),
            was_corrected := true }, true)
      else
        match dget idx dep.modId with
        | none => correctDeps idx amap info rest
        | some dep_filename =>
          if dep_filename == "" then correctDeps idx amap info rest
          else
            match dget amap dep_filename with
            | none => correctDeps idx amap info rest
            | some dep_info =>
              if dep_info.final_classification == Classification.UNIVERSAL ||
                  dep_info.final_classification == Classification.API_LIBRARY then
                ({ info with
                    final_classification := .UNIVERSAL,
                    correction_reason := some (.dependsOnUniversal dep.modId),
                    was_corrected := true }, true)
              else correctDeps idx amap info rest

/-- One iteration of the correction sweep (dist.py lines 290-325) over the
pair (record map, corrections_made counter): records missing from the map
or initially classified ERROR are skipped; only records whose INITIAL
classification is single-side are examined; the corrected record is written
back in place. -/
def correctStep (idx : Dict String) (acc : Dict ModRecord × Nat)
    (filename : String) : Dict ModRecord × Nat :=
  match dget acc.1 filename with
  | none => acc
  | some info =>
    if info.initial_classification = .ERROR then acc
    else if info.initial_classification = .SERVER_ONLY ∨
        info.initial_classification = .CLIENT_ONLY then
      let res := correctDeps idx acc.1 info info.dependencies
      (dset acc.1 filename res.1, acc.2 + (if res.2 then 1 else 0))
    else acc

/-- The whole Stage 2 correction sweep: a single forward fold over the
archive enumeration order, returning the updated record map and the number
of corrections made. -/
def runCorrection (amap : Dict ModRecord) (idx : Dict String)
    (names : List String) : Dict ModRecord × Nat :=
  names.foldl (correctStep idx) (amap, 0)

/-! ## The collection phase and the surrounding pipeline of `main` -/

/-- The result of trying to open one jar: either an opened archive, or the
message of the `zipfile.BadZipFile` / `OSError` raised (dist.py line 280). -/
inductive JarOpen where
  | ok (ar : Archive)
  | fail (errMsg : String)
deriving DecidableEq, Repr

/-- A mods directory: the `os.listdir` name sequence, each name paired with
what opening it yields. -/
abbrev ModsDir : Type := List (String × JarOpen)

/-- `os.listdir(mods_dir)`. -/
def listdir (dir : ModsDir) : List String :=
  List.map Prod.fst dir

/-- Opening a directory entry by name.  In `main` this is only ever applied
to names produced by `listdir`, for which the default branch is unreachable. -/
def dirOpen (dir : ModsDir) (filename : String) : JarOpen :=
  ((List.find? (fun p => p.1 == filename) dir).map Prod.snd).getD
    (.fail "missing")

/-- Lexicographic comparison of character lists by code point — the
comparison underlying the Python `<=` on strings. -/
def lexLe : List Char → List Char → Bool
  | [], _ => true
  | _ :: _, [] => false
  | a :: moreA, b :: moreB =>
    if a.toNat < b.toNat then true
    else if b.toNat < a.toNat then false
    else lexLe moreA moreB

/-- The case-insensitive filename order `key=str.lower` used by
`sorted(os.listdir(...), key=str.lower)` (dist.py line 251). -/
def leCI (a b : String) : Prop :=
  lexLe (a.data.map Char.toLower) (b.data.map Char.toLower) = true

instance : DecidableRel leCI := fun a b => by
  unfold leCI; infer_instance

/-- Lowercased `.jar` suffix test (dist.py line 251). -/
def isJarName (f : String) : Bool :=
  (".jar".data).isSuffixOf (f.data.map Char.toLower)

/-- `jar_files` (dist.py line 251): sort the directory listing
case-insensitively, then keep the names ending in `.jar` case-insensitively.
Python sorts with a stable sort by the lowercased key; any stable sort
agrees with it, and `List.insertionSort` is one. -/
def jar_files (names : List String) : List String :=
  (names.insertionSort leCI).filter isJarName

/-- The manifest text of an archive (dist.py lines 261-264): empty when the
archive has no `META-INF/mods.toml` entry.  An unreadable manifest entry is
modelled as empty text (in the source this raises inside the same `try` and
the archive is recorded as an error; archives in this model are taken to
have readable manifests, which is the only case the claims exercise). -/
def tomlContent (ar : Archive) : List Char :=
  if ar.namelist.contains "META-INF/mods.toml" then
    (ar.readEntry "META-INF/mods.toml").getD []
  else []

/-- The record built for a successfully opened archive (dist.py lines
266-277): final classification starts equal to the initial one, not yet
corrected. -/
def mkOkRecord (ar : Archive) : ModRecord :=
  let metadata := get_mod_metadata (tomlContent ar)
  let ic := initial_classify ar (tomlContent ar) ar.namelist
  { modId := metadata.modId, dependencies := metadata.dependencies,
    initial_classification := ic.1, initial_reason := ic.2,
    final_classification := ic.1,
    was_corrected := false, correction_reason := none }

/-- One iteration of the Stage 1 collection loop (dist.py lines 256-284)
over the pair (record map, modId index): a successful open stores the
freshly classified record and — when a modId was parsed — registers it in
the index (last write wins); a failed open stores an error record and
leaves the index alone. -/
def collectStep (dir : ModsDir) (acc : Dict ModRecord × Dict String)
    (filename : String) : Dict ModRecord × Dict String :=
  match dirOpen dir filename with
  | .ok ar =>
    let record := mkOkRecord ar
    (dset acc.1 filename record,
     match record.modId with
     | some mid => dset acc.2 mid filename
     | none => acc.2)
  | .fail e => (dset acc.1 filename (errorRecord e), acc.2)

/-- The filename sequence the Stage 1 collection loop iterates
(dist.py line 256: `for filename in jar_files`). -/
def collectionOrder (dir : ModsDir) : List String :=
  jar_files (listdir dir)

/-- The filename sequence the Stage 2 correction loop iterates
(dist.py line 290: again `for filename in jar_files`, the same list). -/
def correctionOrder (dir : ModsDir) : List String :=
  jar_files (listdir dir)

/-- The whole Stage 1 collection pass. -/
def collectPhase (dir : ModsDir) : Dict ModRecord × Dict String :=
  (collectionOrder dir).foldl (collectStep dir) ([], [])

/-- Both phases of `main` chained: collect, then correct over the same
enumeration order.  Returns final records, the modId index and the number
of corrections. -/
def runPipeline (dir : ModsDir) : Dict ModRecord × Dict String × Nat :=
  let p1 := collectPhase dir
  let p2 := runCorrection p1.1 p1.2 (correctionOrder dir)
  (p2.1, p1.2, p2.2)

/-- `category_folders` (dist.py lines 237-243) as a total lookup from the
five classifications to archival folder names; the `.get(..., "5_Errors")`
default of line 335 can only produce one of these five values because every
record classification is one of the five dict keys. -/
def category_folders : Classification → String
  | .CLIENT_ONLY => "1_Client_Side"
  | .SERVER_ONLY => "2_Server_Side"
  | .UNIVERSAL => "3_Both_Universal"
  | .API_LIBRARY => "4_API_Library"
  | .ERROR => "5_Errors"

/-- The per-record blocks of the report, in the order `write_log_file`
prints them (dist.py line 167: items sorted by lowercased filename). -/
def reportEntries (amap : Dict ModRecord) : List (String × ModRecord) :=
  List.insertionSort (fun p q => leCI p.1 q.1) amap

/-! ## Lemmas about the Signature Scanner -/

theorem bool_step_out {a b : Bool} : (!a || (a || b)) = true := by
  cases a <;> simp

theorem bool_le_trans {a b c : Bool} (h1 : (!a || b) = true)
    (h2 : (!b || c) = true) : (!a || c) = true := by
  cases a <;> cases b <;> simp_all

/-- Scanning one entry never clears a signal. -/
theorem scanEntry_mono (content : List Char) (f : Findings) :
    findingsLE f (scanEntry content f) = true := by
  cases f
  simp only [findingsLE, scanEntry, Bool.and_eq_true]
  refine ⟨⟨⟨⟨⟨⟨⟨?_, ?_⟩, ?_⟩, ?_⟩, ?_⟩, ?_⟩, ?_⟩, ?_⟩ <;> exact bool_step_out

theorem findingsLE_refl (f : Findings) : findingsLE f f = true := by
  cases f
  simp only [findingsLE, Bool.and_eq_true]
  refine ⟨⟨⟨⟨⟨⟨⟨?_, ?_⟩, ?_⟩, ?_⟩, ?_⟩, ?_⟩, ?_⟩, ?_⟩ <;>
    (rename_i b; cases b <;> simp)

theorem findingsLE_trans {f g h : Findings} (h1 : findingsLE f g = true)
    (h2 : findingsLE g h = true) : findingsLE f h = true := by
  cases f; cases g; cases h
  simp only [findingsLE, Bool.and_eq_true] at h1 h2 ⊢
  obtain ⟨⟨⟨⟨⟨⟨⟨a1, a2⟩, a3⟩, a4⟩, a5⟩, a6⟩, a7⟩, a8⟩ := h1
  obtain ⟨⟨⟨⟨⟨⟨⟨b1, b2⟩, b3⟩, b4⟩, b5⟩, b6⟩, b7⟩, b8⟩ := h2
  exact ⟨⟨⟨⟨⟨⟨⟨bool_le_trans a1 b1, bool_le_trans a2 b2⟩, bool_le_trans a3 b3⟩,
    bool_le_trans a4 b4⟩, bool_le_trans a5 b5⟩, bool_le_trans a6 b6⟩,
    bool_le_trans a7 b7⟩, bool_le_trans a8 b8⟩

/-- Once every signal is set, scanning an entry changes nothing. -/
theorem scanEntry_fixed (content : List Char) (f : Findings)
    (h : allFound f = true) : scanEntry content f = f := by
  cases f
  simp only [allFound, Bool.and_eq_true] at h
  obtain ⟨⟨⟨⟨⟨⟨⟨h1, h2⟩, h3⟩, h4⟩, h5⟩, h6⟩, h7⟩, h8⟩ := h
  simp_all [scanEntry]

/-- The per-entry step of the unabridged scan. -/
def scanStepAll (ar : Archive) (f : Findings) (name : String) : Findings :=
  match ar.readEntry name with
  | none => f
  | some content => scanEntry content f

theorem foldl_scanStepAll_fixed (ar : Archive) (names : List String)
    (f : Findings) (h : allFound f = true) :
    names.foldl (scanStepAll ar) f = f := by
  induction names with
  | nil => rfl
  | cons n rest ih =>
    show List.foldl (scanStepAll ar) (scanStepAll ar f n) rest = f
    have : scanStepAll ar f n = f := by
      unfold scanStepAll
      cases ar.readEntry n with
      | none => rfl
      | some c => exact scanEntry_fixed c f h
    rw [this, ih]

/-- The short-circuiting loop computes the same findings as a fold over all
entries. -/
theorem scanLoop_eq_foldl (ar : Archive) (names : List String) (f : Findings) :
    scanLoop ar names f = names.foldl (scanStepAll ar) f := by
  induction names generalizing f with
  | nil => rfl
  | cons n rest ih =>
    show scanLoop ar (n :: rest) f = List.foldl (scanStepAll ar) (scanStepAll ar f n) rest
    unfold scanLoop scanStepAll
    cases ar.readEntry n with
    | none => exact ih f
    | some c =>
      by_cases hall : allFound (scanEntry c f) = true
      · simp only [hall, if_true]
        exact (foldl_scanStepAll_fixed ar rest _ hall).symm
      · simp only [hall, if_false]
        exact ih _

/-- The loop never clears a signal. -/
theorem scanLoop_mono (ar : Archive) (names : List String) (f : Findings) :
    findingsLE f (scanLoop ar names f) = true := by
  induction names generalizing f with
  | nil => exact findingsLE_refl f
  | cons n rest ih =>
    unfold scanLoop
    cases ar.readEntry n with
    | none => exact ih f
    | some c =>
      by_cases hall : allFound (scanEntry c f) = true
      · simp only [hall, if_true]
        exact scanEntry_mono c f
      · simp only [hall, if_false]
        exact findingsLE_trans (scanEntry_mono c f) (ih _)

/-- C7: the Signature Scanner output is identical with and without the
short-circuit — the short-circuiting scan over the compiled-code entries
equals the scan of all of them — and the signals are monotonic
OR-accumulations: scanning additional entries (from any starting findings)
never turns a true signal false, and a single entry never turns a true
signal false. -/
theorem scanner_short_circuit_equiv (ar : Archive) :
    analyze_code_references ar = analyzeAllEntries ar ∧
    (∀ (names : List String) (f : Findings),
      findingsLE f (scanLoop ar names f) = true) ∧
    (∀ (content : List Char) (f : Findings),
      findingsLE f (scanEntry content f) = true) := by
  refine ⟨?_, fun names f => scanLoop_mono ar names f,
    fun content f => scanEntry_mono content f⟩
  unfold analyze_code_references analyzeAllEntries
  rw [scanLoop_eq_foldl]
  rfl

/-! ## The Initial Classifier decision chain -/

/-- C4: `initial_classify` is an ordered decision chain in which the first
matching rule wins: a manifest declaring displayTest CLIENT_ONLY yields
CLIENT_ONLY whatever the archive contents, entry names, exports or
description; otherwise a declared exports section yields API_LIBRARY;
otherwise a description mentioning api or library (case-insensitively)
yields API_LIBRARY; and only when none of the three manifest rules fires is
the result the asset/signal computation `classify_by_signals`. -/
theorem classifier_decision_chain (ar : Archive) (toml_content : List Char)
    (namelist : List String) :
    (searchDisplayTest toml_content = true →
      initial_classify ar toml_content namelist =
        (.CLIENT_ONLY, .displayTestClientOnly)) ∧
    (searchDisplayTest toml_content = false →
      hasExportsTable toml_content = true →
      initial_classify ar toml_content namelist =
        (.API_LIBRARY, .exportsDefined)) ∧
    (searchDisplayTest toml_content = false →
      hasExportsTable toml_content = false →
      descriptionMentionsApi toml_content = true →
      initial_classify ar toml_content namelist =
        (.API_LIBRARY, .descriptionApiLibrary)) ∧
    (searchDisplayTest toml_content = false →
      hasExportsTable toml_content = false →
      descriptionMentionsApi toml_content = false →
      initial_classify ar toml_content namelist =
        classify_by_signals ar namelist) := by
  refine ⟨fun h1 => ?_, fun h1 h2 => ?_, fun h1 h2 h3 => ?_, fun h1 h2 h3 => ?_⟩
  · simp [initial_classify, h1]
  · simp [initial_classify, h1, h2]
  · simp [initial_classify, h1, h2, h3]
  · simp [initial_classify, h1, h2, h3]

/-- A manifest that sets displayTest, an exports table, an api description
and a client-code class all at once; only the first rule fires. -/
def c4Toml : List Char :=
  ("displayTest = \"CLIENT_ONLY\"\n[[exports]]\ndescription = \"api library\"\n").data

/-- An archive whose signals alone would classify as SERVER_ONLY. -/
def c4Archive : Archive :=
  ⟨[("a.class", some ("net/minecraft/server/level/".data))]⟩

theorem classifier_decision_chain_witness :
    searchDisplayTest c4Toml = true ∧
    initial_classify c4Archive c4Toml (c4Archive.namelist) =
      (.CLIENT_ONLY, .displayTestClientOnly) :=
  ⟨by decide,
   (classifier_decision_chain c4Archive c4Toml c4Archive.namelist).1 (by decide)⟩


/-! ## Dictionary lemmas -/

theorem dget_nil {α : Type} (k : String) : dget ([] : Dict α) k = none := rfl

theorem dget_cons_pos {α : Type} {a : String × α} (t : Dict α) {k : String}
    (h : (a.1 == k) = true) : dget (a :: t) k = some a.2 := by
  unfold dget
  rw [@List.find?_cons_of_pos _ (fun p => p.1 == k) a t h]
  rfl

theorem dget_cons_neg {α : Type} {a : String × α} (t : Dict α) {k : String}
    (h : (a.1 == k) = false) : dget (a :: t) k = dget t k := by
  unfold dget
  rw [@List.find?_cons_of_neg _ (fun p => p.1 == k) a t (by simp [h])]

theorem find?_isSome_of_dget {α : Type} {d : Dict α} {k : String} {v : α}
    (h : dget d k = some v) :
    (List.find? (fun p => p.1 == k) d).isSome = true := by
  unfold dget at h
  cases hf : List.find? (fun p => p.1 == k) d with
  | none => rw [hf] at h; simp at h
  | some p => simp

theorem dget_map_replace_self {α : Type} (d : Dict α) (k : String) (v : α)
    (h : (List.find? (fun p => p.1 == k) d).isSome = true) :
    dget (List.map (fun p => if p.1 == k then (k, v) else p) d) k = some v := by
  induction d with
  | nil => simp at h
  | cons a t ih =>
    rw [List.map_cons]
    cases ha : (a.1 == k) with
    | true =>
      rw [if_pos rfl]
      exact dget_cons_pos _ (by simp)
    | false =>
      rw [if_neg (by simp)]
      have ht : (List.find? (fun p => p.1 == k) t).isSome = true := by
        rw [@List.find?_cons_of_neg _ (fun p => p.1 == k) a t (by simp [ha])] at h
        exact h
      rw [dget_cons_neg _ ha]
      exact ih ht

theorem dget_append_one_self {α : Type} (d : Dict α) (k : String) (v : α)
    (h : ∀ p ∈ d, (p.1 == k) = false) : dget (d ++ [(k, v)]) k = some v := by
  induction d with
  | nil =>
    rw [List.nil_append]
    exact dget_cons_pos _ (by simp)
  | cons a t ih =>
    rw [List.cons_append, dget_cons_neg _ (h a (List.mem_cons_self a t))]
    exact ih (fun p hp => h p (List.mem_cons_of_mem a hp))

theorem dget_dset_self {α : Type} (d : Dict α) (k : String) (v : α) :
    dget (dset d k v) k = some v := by
  unfold dset
  cases hb : (List.find? (fun p => p.1 == k) d).isSome with
  | true =>
    rw [if_pos rfl]
    exact dget_map_replace_self d k v hb
  | false =>
    rw [if_neg (by simp)]
    apply dget_append_one_self
    intro p hp
    have hnone : List.find? (fun q => q.1 == k) d = none := by
      cases hf : List.find? (fun q => q.1 == k) d with
      | none => rfl
      | some q => rw [hf] at hb; simp at hb
    have hnp := List.find?_eq_none.mp hnone p hp
    cases hq : (p.1 == k) with
    | true => exact absurd hq hnp
    | false => rfl

theorem dget_map_replace_ne {α : Type} (d : Dict α) (k k' : String) (v : α)
    (hne : k' ≠ k) :
    dget (List.map (fun p => if p.1 == k then (k, v) else p) d) k' = dget d k' := by
  induction d with
  | nil => rfl
  | cons a t ih =>
    rw [List.map_cons]
    cases ha : (a.1 == k) with
    | true =>
      have hak : a.1 = k := by simpa using ha
      have h1 : (k == k') = false := by
        simp only [beq_eq_false_iff_ne, ne_eq]
        exact fun hc => hne hc.symm
      have h2 : (a.1 == k') = false := by rw [hak]; exact h1
      rw [if_pos rfl, dget_cons_neg _ h1, dget_cons_neg _ h2]
      exact ih
    | false =>
      rw [if_neg (by simp)]
      cases hk : (a.1 == k') with
      | true => rw [dget_cons_pos _ hk, dget_cons_pos _ hk]
      | false =>
        rw [dget_cons_neg _ hk, dget_cons_neg _ hk]
        exact ih

theorem dget_append_one_ne {α : Type} (d : Dict α) (k k' : String) (v : α)
    (hne : k' ≠ k) : dget (d ++ [(k, v)]) k' = dget d k' := by
  induction d with
  | nil =>
    have h1 : (k == k') = false := by
      simp only [beq_eq_false_iff_ne, ne_eq]
      exact fun hc => hne hc.symm
    rw [List.nil_append, dget_cons_neg _ h1]
  | cons a t ih =>
    rw [List.cons_append]
    cases hk : (a.1 == k') with
    | true => rw [dget_cons_pos _ hk, dget_cons_pos _ hk]
    | false =>
      rw [dget_cons_neg _ hk, dget_cons_neg _ hk]
      exact ih

theorem dget_dset_ne {α : Type} (d : Dict α) (k k' : String) (v : α)
    (hne : k' ≠ k) : dget (dset d k v) k' = dget d k' := by
  unfold dset
  cases hb : (List.find? (fun p => p.1 == k) d).isSome with
  | true =>
    rw [if_pos rfl]
    exact dget_map_replace_ne d k k' v hne
  | false =>
    rw [if_neg (by simp)]
    exact dget_append_one_ne d k k' v hne

theorem dkeys_map_replace {α : Type} (d : Dict α) (k : String) (v : α) :
    dkeys (List.map (fun p => if p.1 == k then (k, v) else p) d) = dkeys d := by
  unfold dkeys
  induction d with
  | nil => rfl
  | cons a t ih =>
    rw [List.map_cons, List.map_cons, List.map_cons, ih]
    congr 1
    cases ha : (a.1 == k) with
    | true =>
      have hak : a.1 = k := by simpa using ha
      rw [if_pos rfl, hak]
    | false => rw [if_neg (by simp)]

theorem dkeys_dset_of_found {α : Type} (d : Dict α) (k : String) (v : α)
    (h : (List.find? (fun p => p.1 == k) d).isSome = true) :
    dkeys (dset d k v) = dkeys d := by
  unfold dset
  rw [if_pos h]
  exact dkeys_map_replace d k v

theorem map_replace_id {α : Type} (k : String) (v : α) :
    ∀ d : Dict α, (dkeys d).Nodup → dget d k = some v →
      List.map (fun p => if p.1 == k then (k, v) else p) d = d := by
  intro d
  induction d with
  | nil => intro _ _; rfl
  | cons a t ih =>
    intro hnd h
    rw [List.map_cons]
    cases ha : (a.1 == k) with
    | true =>
      have hak : a.1 = k := by simpa using ha
      have hav : a.2 = v := by
        rw [dget_cons_pos t ha] at h
        exact Option.some.inj h
      have hknot : k ∉ List.map Prod.fst t := by
        unfold dkeys at hnd
        rw [List.map_cons, hak] at hnd
        exact (List.nodup_cons.mp hnd).1
      have htid : List.map (fun p => if p.1 == k then (k, v) else p) t = t := by
        have hall : ∀ p ∈ t,
            (if p.1 == k then ((k, v) : String × α) else p) = id p := by
          intro p hp
          have hpk : (p.1 == k) = false := by
            simp only [beq_eq_false_iff_ne, ne_eq]
            intro he
            exact hknot (he ▸ List.mem_map_of_mem Prod.fst hp)
          rw [hpk]
          rfl
        exact (List.map_congr_left hall).trans (List.map_id t)
      have hhead : ((k, v) : String × α) = a := by
        cases a with
        | mk x y =>
          simp only at hak hav
          rw [hak, hav]
      rw [if_pos rfl, htid, hhead]
    | false =>
      have hnd' : (dkeys t).Nodup := by
        unfold dkeys at hnd ⊢
        rw [List.map_cons] at hnd
        exact (List.nodup_cons.mp hnd).2
      have h' : dget t k = some v := by
        rw [dget_cons_neg t ha] at h
        exact h
      rw [if_neg (by simp), ih hnd' h']

theorem dset_self {α : Type} (d : Dict α) (k : String) (v : α)
    (hnd : (dkeys d).Nodup) (h : dget d k = some v) : dset d k v = d := by
  unfold dset
  rw [if_pos (find?_isSome_of_dget h)]
  exact map_replace_id k v d hnd h

theorem dget_mem {α : Type} {d : Dict α} {k : String} {v : α}
    (h : dget d k = some v) : (k, v) ∈ d := by
  unfold dget at h
  cases hf : List.find? (fun p => p.1 == k) d with
  | none => rw [hf] at h; simp at h
  | some p =>
    rw [hf] at h
    have hp := List.mem_of_find?_eq_some hf
    have hk : (p.1 == k) = true := @List.find?_some _ (fun q => q.1 == k) p d hf
    have hk' : p.1 = k := by simpa using hk
    have hv : p.2 = v := by simpa using h
    have hpkv : p = (k, v) := by
      cases p with
      | mk x y =>
        simp only at hk' hv
        rw [hk', hv]
    rwa [hpkv] at hp

/-! ## Lemmas about the Dependency Corrector -/

/-- A dependency that the loop passes over without acting: ignored, or
neither side-BOTH nor resolving to a currently universal/API record. -/
def depSkipped (idx : Dict String) (amap : Dict ModRecord)
    (dep : Dependency) : Bool :=
  IGNORED_DEPENDENCIES.contains dep.modId ||
  (!(pyUpper dep.side == "BOTH") && !(depQualifies idx amap dep))

theorem ne_true_of_eq_false {b : Bool} (h : b = false) : ¬ b = true := by
  rw [h]
  exact Bool.false_ne_true

theorem correctDeps_cons_ignored (idx : Dict String) (amap : Dict ModRecord)
    (info : ModRecord) (dep : Dependency) (rest : List Dependency)
    (h : IGNORED_DEPENDENCIES.contains dep.modId = true) :
    correctDeps idx amap info (dep :: rest) = correctDeps idx amap info rest := by
  conv_lhs => unfold correctDeps
  rw [if_pos h]

theorem correctDeps_cons_both (idx : Dict String) (amap : Dict ModRecord)
    (info : ModRecord) (dep : Dependency) (rest : List Dependency)
    (hni : IGNORED_DEPENDENCIES.contains dep.modId = false)
    (hb : (pyUpper dep.side == "BOTH") = true) :
    correctDeps idx amap info (dep :: rest) =
      ({ info with
          final_classification := .UNIVERSAL,
          correction_reason := some (.requiredBothSides dep.modId),
          was_corrected := true }, true) := by
  conv_lhs => unfold correctDeps
  rw [if_neg (ne_true_of_eq_false hni)]
  simp only [hb, if_true]

theorem correctDeps_cons_resolve (idx : Dict String) (amap : Dict ModRecord)
    (info : ModRecord) (dep : Dependency) (rest : List Dependency)
    (hni : IGNORED_DEPENDENCIES.contains dep.modId = false)
    (hb : (pyUpper dep.side == "BOTH") = false) :
    correctDeps idx amap info (dep :: rest) =
      if depQualifies idx amap dep then
        ({ info with
            final_classification := .UNIVERSAL,
            correction_reason := some (.dependsOnUniversal dep.modId),
            was_corrected := true }, true)
      else correctDeps idx amap info rest := by
  conv_lhs => unfold correctDeps
  rw [if_neg (ne_true_of_eq_false hni)]
  simp only [hb, Bool.false_eq_true, if_false]
  cases hq : dget idx dep.modId with
  | none => simp [depQualifies, hq]
  | some fn =>
    cases hfn : (fn == "") with
    | true => simp [depQualifies, hq, hfn]
    | false =>
      cases hm : dget amap fn with
      | none => simp [depQualifies, hq, hfn, hm]
      | some di =>
        cases hc : (di.final_classification == Classification.UNIVERSAL ||
            di.final_classification == Classification.API_LIBRARY) with
        | true => simp [depQualifies, hq, hfn, hm, hc]
        | false => simp [depQualifies, hq, hfn, hm, hc]

theorem correctDeps_cons_skipped (idx : Dict String) (amap : Dict ModRecord)
    (info : ModRecord) (dep : Dependency) (rest : List Dependency)
    (h : depSkipped idx amap dep = true) :
    correctDeps idx amap info (dep :: rest) = correctDeps idx amap info rest := by
  cases hni : IGNORED_DEPENDENCIES.contains dep.modId with
  | true => exact correctDeps_cons_ignored idx amap info dep rest hni
  | false =>
    simp only [depSkipped, hni, Bool.false_or, Bool.and_eq_true,
      Bool.not_eq_true'] at h
    obtain ⟨hb, hq⟩ := h
    rw [correctDeps_cons_resolve idx amap info dep rest hni hb]
    rw [if_neg (ne_true_of_eq_false hq)]

theorem correctDeps_skip_all (idx : Dict String) (amap : Dict ModRecord)
    (info : ModRecord) (pre l : List Dependency)
    (h : pre.all (depSkipped idx amap) = true) :
    correctDeps idx amap info (pre ++ l) = correctDeps idx amap info l := by
  induction pre with
  | nil => rfl
  | cons d tl ih =>
    rw [List.all_cons, Bool.and_eq_true] at h
    rw [List.cons_append, correctDeps_cons_skipped idx amap info d _ h.1]
    exact ih h.2

/-- Every run of the dependency loop either leaves the record alone (no
correction) or corrects it to UNIVERSAL with one of the two reason
templates. -/
theorem correctDeps_cases (idx : Dict String) (amap : Dict ModRecord)
    (info : ModRecord) (deps : List Dependency) :
    correctDeps idx amap info deps = (info, false) ∨
    ∃ reason : CorrectionReason,
      correctDeps idx amap info deps =
        ({ info with
            final_classification := .UNIVERSAL,
            correction_reason := some reason,
            was_corrected := true }, true) := by
  induction deps with
  | nil => exact Or.inl rfl
  | cons dep rest ih =>
    cases hni : IGNORED_DEPENDENCIES.contains dep.modId with
    | true => rw [correctDeps_cons_ignored idx amap info dep rest hni]; exact ih
    | false =>
      cases hb : (pyUpper dep.side == "BOTH") with
      | true =>
        rw [correctDeps_cons_both idx amap info dep rest hni hb]
        exact Or.inr ⟨.requiredBothSides dep.modId, rfl⟩
      | false =>
        rw [correctDeps_cons_resolve idx amap info dep rest hni hb]
        cases hq : depQualifies idx amap dep with
        | true =>
          rw [if_pos rfl]
          exact Or.inr ⟨.dependsOnUniversal dep.modId, rfl⟩
        | false =>
          rw [if_neg (by simp)]
          exact ih

/-! ## Claims C2 and C3: the per-record dependency loop -/

/-- C2: while a record is being corrected, its dependencies are scanned in
declared order; a dependency whose modId is in the fixed ignore-list
(minecraft, forge) is passed over with no effect; and at the first
non-ignored dependency whose uppercased side is BOTH — every earlier
dependency having been passed over — the record is corrected to UNIVERSAL
with the side=BOTH reason citing exactly that modId, and iteration stops:
the result is independent of the remaining dependencies, so the record is
corrected at most once and the first qualifying dependency in declaration
order determines the reason. -/
theorem corrector_side_both_first (idx : Dict String) (amap : Dict ModRecord)
    (info : ModRecord) (pre : List Dependency) (d : Dependency)
    (rest : List Dependency)
    (hpre : pre.all (depSkipped idx amap) = true)
    (hni : IGNORED_DEPENDENCIES.contains d.modId = false)
    (hb : (pyUpper d.side == "BOTH") = true) :
    correctDeps idx amap info (pre ++ d :: rest) =
      ({ info with
          final_classification := .UNIVERSAL,
          correction_reason := some (.requiredBothSides d.modId),
          was_corrected := true }, true) ∧
    (∀ (dep : Dependency) (l : List Dependency),
      IGNORED_DEPENDENCIES.contains dep.modId = true →
      correctDeps idx amap info (dep :: l) = correctDeps idx amap info l) := by
  constructor
  · rw [correctDeps_skip_all idx amap info pre _ hpre]
    exact correctDeps_cons_both idx amap info d rest hni hb
  · exact fun dep l hig => correctDeps_cons_ignored idx amap info dep l hig

/-- Witness inputs for C2: an ignored dependency and an unresolvable one
precede the side=BOTH dependency; a later side=BOTH dependency is never
reached. -/
def w2info : ModRecord :=
  { modId := some "m", dependencies := [],
    initial_classification := .CLIENT_ONLY,
    initial_reason := .clientOnlyNoAssets,
    final_classification := .CLIENT_ONLY,
    was_corrected := false, correction_reason := none }

def w2pre : List Dependency := [⟨"minecraft", "BOTH"⟩, ⟨"x", "CLIENT"⟩]

def w2d : Dependency := ⟨"core", "both"⟩

def w2rest : List Dependency := [⟨"y", "BOTH"⟩]

theorem corrector_side_both_first_witness :
    w2pre.all (depSkipped [] []) = true ∧
    IGNORED_DEPENDENCIES.contains w2d.modId = false ∧
    (pyUpper w2d.side == "BOTH") = true ∧
    (correctDeps [] [] w2info (w2pre ++ w2d :: w2rest) =
      ({ w2info with
          final_classification := .UNIVERSAL,
          correction_reason := some (.requiredBothSides w2d.modId),
          was_corrected := true }, true) ∧
     (∀ (dep : Dependency) (l : List Dependency),
        IGNORED_DEPENDENCIES.contains dep.modId = true →
        correctDeps [] [] w2info (dep :: l) = correctDeps [] [] w2info l)) :=
  ⟨by decide, by decide, by decide,
   corrector_side_both_first [] [] w2info w2pre w2d w2rest
     (by decide) (by decide) (by decide)⟩

/-- C3: while a record is being corrected, a non-ignored dependency whose
side is not BOTH is resolved through the modId index: when it is unresolved
the dependency is skipped and iteration continues; when it resolves to a
record whose final classification is ERROR it is likewise skipped; and when
it resolves (at the moment the record is processed — the map argument is
the current sweep state, already reflecting earlier corrections) to a
record currently UNIVERSAL or API_LIBRARY, the record is corrected to
UNIVERSAL with the depends-on-universal reason citing that modId, and
iteration stops regardless of the remaining dependencies. -/
theorem corrector_resolution (idx : Dict String) (amap : Dict ModRecord)
    (info : ModRecord) (pre : List Dependency) (d : Dependency)
    (rest : List Dependency) (fn : String) (depInfo : ModRecord)
    (hpre : pre.all (depSkipped idx amap) = true)
    (hni : IGNORED_DEPENDENCIES.contains d.modId = false)
    (hb : (pyUpper d.side == "BOTH") = false)
    (hfn : dget idx d.modId = some fn)
    (hfne : (fn == "") = false)
    (hm : dget amap fn = some depInfo)
    (hu : depInfo.final_classification = .UNIVERSAL ∨
      depInfo.final_classification = .API_LIBRARY) :
    correctDeps idx amap info (pre ++ d :: rest) =
      ({ info with
          final_classification := .UNIVERSAL,
          correction_reason := some (.dependsOnUniversal d.modId),
          was_corrected := true }, true) ∧
    (∀ (d2 : Dependency) (l : List Dependency),
      IGNORED_DEPENDENCIES.contains d2.modId = false →
      (pyUpper d2.side == "BOTH") = false →
      dget idx d2.modId = none →
      correctDeps idx amap info (d2 :: l) = correctDeps idx amap info l) ∧
    (∀ (d2 : Dependency) (l : List Dependency) (fn2 : String) (di2 : ModRecord),
      IGNORED_DEPENDENCIES.contains d2.modId = false →
      (pyUpper d2.side == "BOTH") = false →
      dget idx d2.modId = some fn2 →
      dget amap fn2 = some di2 →
      di2.final_classification = .ERROR →
      correctDeps idx amap info (d2 :: l) = correctDeps idx amap info l) := by
  refine ⟨?_, ?_, ?_⟩
  · rw [correctDeps_skip_all idx amap info pre _ hpre]
    rw [correctDeps_cons_resolve idx amap info d rest hni hb]
    have hq : depQualifies idx amap d = true := by
      simp only [depQualifies, hfn]
      rw [if_neg (ne_true_of_eq_false hfne)]
      simp only [hm]
      rcases hu with h | h <;> simp [h]
    rw [if_pos hq]
  · intro d2 l hni2 hb2 hnone
    rw [correctDeps_cons_resolve idx amap info d2 l hni2 hb2]
    have hq2 : depQualifies idx amap d2 = false := by
      simp only [depQualifies, hnone]
    rw [if_neg (ne_true_of_eq_false hq2)]
  · intro d2 l fn2 di2 hni2 hb2 hfn2 hm2 herr
    rw [correctDeps_cons_resolve idx amap info d2 l hni2 hb2]
    have hq3 : depQualifies idx amap d2 = false := by
      simp only [depQualifies, hfn2]
      cases hfe : (fn2 == "") with
      | true => rw [if_pos rfl]
      | false =>
        rw [if_neg (by simp)]
        simp only [hm2, herr]
        rfl
    rw [if_neg (ne_true_of_eq_false hq3)]

/-- Witness inputs for C3: the corrected record depends, side=CLIENT, on a
modId resolving to an API_LIBRARY record. -/
def w3lib : ModRecord :=
  { modId := some "lib", dependencies := [],
    initial_classification := .API_LIBRARY,
    initial_reason := .exportsDefined,
    final_classification := .API_LIBRARY,
    was_corrected := false, correction_reason := none }

def w3map : Dict ModRecord := [("lib.jar", w3lib)]

def w3idx : Dict String := [("lib", "lib.jar")]

def w3d : Dependency := ⟨"lib", "CLIENT"⟩

theorem corrector_resolution_witness :
    (([] : List Dependency).all (depSkipped w3idx w3map) = true ∧
     IGNORED_DEPENDENCIES.contains w3d.modId = false ∧
     (pyUpper w3d.side == "BOTH") = false ∧
     dget w3idx w3d.modId = some "lib.jar" ∧
     ("lib.jar" == "") = false ∧
     dget w3map "lib.jar" = some w3lib ∧
     w3lib.final_classification = .API_LIBRARY) ∧
    correctDeps w3idx w3map w2info ([] ++ w3d :: []) =
      ({ w2info with
          final_classification := .UNIVERSAL,
          correction_reason := some (.dependsOnUniversal w3d.modId),
          was_corrected := true }, true) :=
  ⟨⟨by decide, by decide, by decide, by decide, by decide, by decide, by decide⟩,
   (corrector_resolution w3idx w3map w2info [] w3d [] "lib.jar" w3lib
     (by decide) (by decide) (by decide) (by decide) (by decide) (by decide)
     (Or.inr (by decide))).1⟩

/-! ## Claim C1: the global corrector invariant -/

/-- How a record can differ, mid-sweep or after it, from its Stage 1 value:
either untouched, or — only for an initially single-side record — corrected
to UNIVERSAL with some reason. -/
def EvolvedFrom (orig cur : ModRecord) : Prop :=
  cur = orig ∨
  ((orig.initial_classification = .CLIENT_ONLY ∨
    orig.initial_classification = .SERVER_ONLY) ∧
   ∃ reason : CorrectionReason,
     cur = { orig with
        final_classification := .UNIVERSAL,
        correction_reason := some reason,
        was_corrected := true })

theorem evolvedFrom_initial {o c : ModRecord} (h : EvolvedFrom o c) :
    c.initial_classification = o.initial_classification := by
  rcases h with h | ⟨_, _, h⟩ <;> rw [h]

theorem evolvedFrom_correct {o c : ModRecord} (h : EvolvedFrom o c)
    (hg : c.initial_classification = .CLIENT_ONLY ∨
      c.initial_classification = .SERVER_ONLY) (reason : CorrectionReason) :
    EvolvedFrom o { c with
        final_classification := .UNIVERSAL,
        correction_reason := some reason,
        was_corrected := true } := by
  rcases h with h | ⟨hio, _, h⟩
  · subst h
    exact Or.inr ⟨hg, reason, rfl⟩
  · subst h
    refine Or.inr ⟨hio, reason, rfl⟩

/-- Pointwise evolution of the whole record map from its Stage 1 value. -/
def MapEvolved (m0 m : Dict ModRecord) : Prop :=
  ∀ k : String,
    (dget m0 k = none ∧ dget m k = none) ∨
    (∃ o c, dget m0 k = some o ∧ dget m k = some c ∧ EvolvedFrom o c)

theorem mapEvolved_refl (m : Dict ModRecord) : MapEvolved m m := by
  intro k
  cases h : dget m k with
  | none => exact Or.inl ⟨rfl, rfl⟩
  | some r => exact Or.inr ⟨r, r, rfl, rfl, Or.inl rfl⟩

theorem correctStep_evolved (idx : Dict String) (m0 : Dict ModRecord)
    (acc : Dict ModRecord × Nat) (fn : String)
    (h : MapEvolved m0 acc.1) : MapEvolved m0 (correctStep idx acc fn).1 := by
  unfold correctStep
  cases hg : dget acc.1 fn with
  | none => exact h
  | some info =>
    dsimp only
    by_cases herr : info.initial_classification = Classification.ERROR
    · rw [if_pos herr]
      exact h
    · rw [if_neg herr]
      by_cases hcs : info.initial_classification = Classification.SERVER_ONLY ∨
          info.initial_classification = Classification.CLIENT_ONLY
      · rw [if_pos hcs]
        intro k
        by_cases hk : k = fn
        · subst hk
          rcases h k with ⟨_, hn⟩ | ⟨o, c, ho, hc, hev⟩
          · rw [hg] at hn
            exact absurd hn (by simp)
          · rw [hg] at hc
            have hci : c = info := (Option.some.inj hc).symm
            subst hci
            refine Or.inr ⟨o, _, ho, dget_dset_self acc.1 k _, ?_⟩
            rcases correctDeps_cases idx acc.1 c c.dependencies with hres | ⟨reason, hres⟩
            · rw [hres]
              exact hev
            · rw [hres]
              exact evolvedFrom_correct hev
                (by rcases hcs with hx | hx
                    · exact Or.inr hx
                    · exact Or.inl hx) reason
        · rcases h k with ⟨hn0, hn⟩ | ⟨o, c, ho, hc, hev⟩
          · exact Or.inl ⟨hn0, by rw [dget_dset_ne acc.1 fn k _ hk]; exact hn⟩
          · exact Or.inr ⟨o, c, ho, by rw [dget_dset_ne acc.1 fn k _ hk]; exact hc, hev⟩
      · rw [if_neg hcs]
        exact h

theorem runCorrection_evolved (idx : Dict String) (m0 : Dict ModRecord)
    (names : List String) :
    ∀ acc : Dict ModRecord × Nat, MapEvolved m0 acc.1 →
      MapEvolved m0 (names.foldl (correctStep idx) acc).1 := by
  induction names with
  | nil => exact fun acc h => h
  | cons n rest ih =>
    intro acc h
    exact ih (correctStep idx acc n) (correctStep_evolved idx m0 acc n h)

/-- C1: the corrector only ever moves a CLIENT_ONLY or SERVER_ONLY record
to UNIVERSAL and changes no other final classification — UNIVERSAL,
API_LIBRARY and ERROR are never demoted, CLIENT_ONLY is never turned into
SERVER_ONLY or vice versa; whenever the output record has wasCorrected set,
its initial classification was CLIENT_ONLY or SERVER_ONLY and its final
classification is UNIVERSAL; and the final classification is ERROR exactly
when the initial classification was ERROR.  The hypothesis is the shape
Stage 1 gives every record: final equal to initial and wasCorrected unset. -/
theorem corrector_invariant (m : Dict ModRecord) (idx : Dict String)
    (names : List String)
    (hinit : ∀ p ∈ m, p.2.final_classification = p.2.initial_classification ∧
      p.2.was_corrected = false) :
    ∀ (fn : String) (r rOut : ModRecord), dget m fn = some r →
      dget (runCorrection m idx names).1 fn = some rOut →
      ((rOut.final_classification = .ERROR ↔
          r.initial_classification = .ERROR) ∧
       (rOut.was_corrected = true →
         (r.initial_classification = .CLIENT_ONLY ∨
          r.initial_classification = .SERVER_ONLY) ∧
         rOut.final_classification = .UNIVERSAL) ∧
       (rOut.final_classification = r.final_classification ∨
         ((r.final_classification = .CLIENT_ONLY ∨
           r.final_classification = .SERVER_ONLY) ∧
          rOut.final_classification = .UNIVERSAL)) ∧
       rOut.initial_classification = r.initial_classification) := by
  intro fn r rOut hr hrOut
  have hev := runCorrection_evolved idx m names (m, 0) (mapEvolved_refl m) fn
  rcases hev with ⟨hn, _⟩ | ⟨o, c, ho, hc, hev⟩
  · rw [hr] at hn
    exact absurd hn (by simp)
  · rw [hr] at ho
    have hor : r = o := Option.some.inj ho
    subst hor
    have hco : c = rOut := by
      unfold runCorrection at hrOut
      rw [hc] at hrOut
      exact Option.some.inj hrOut
    subst hco
    obtain ⟨hfi, hwc⟩ := hinit (fn, r) (dget_mem hr)
    simp only at hfi hwc
    rcases hev with hsame | ⟨hio, reason, hcor⟩
    · subst hsame
      refine ⟨by rw [hfi], ?_, Or.inl rfl, rfl⟩
      intro hw
      rw [hwc] at hw
      exact absurd hw (by simp)
    · subst hcor
      refine ⟨?_, fun _ => ⟨hio, rfl⟩, ?_, rfl⟩
      · constructor
        · intro hx
          exact absurd hx (by simp)
        · intro hx
          rcases hio with hio | hio <;> rw [hio] at hx <;> exact absurd hx (by simp)
      · refine Or.inr ⟨?_, rfl⟩
        rw [hfi]
        exact hio

/-- Witness inputs for C1: one initially CLIENT_ONLY record with a
side=BOTH dependency, corrected by the sweep. -/
def w1rec : ModRecord :=
  { modId := some "m", dependencies := [⟨"core", "BOTH"⟩],
    initial_classification := .CLIENT_ONLY,
    initial_reason := .clientOnlyNoAssets,
    final_classification := .CLIENT_ONLY,
    was_corrected := false, correction_reason := none }

def w1map : Dict ModRecord := [("a.jar", w1rec)]

def w1out : ModRecord :=
  { w1rec with
      final_classification := .UNIVERSAL,
      correction_reason := some (.requiredBothSides "core"),
      was_corrected := true }

theorem corrector_invariant_witness :
    ((∀ p ∈ w1map,
        p.2.final_classification = p.2.initial_classification ∧
        p.2.was_corrected = false) ∧
     dget w1map "a.jar" = some w1rec ∧
     dget (runCorrection w1map [] ["a.jar"]).1 "a.jar" = some w1out) ∧
    ((w1out.final_classification = .ERROR ↔
        w1rec.initial_classification = .ERROR) ∧
     (w1out.was_corrected = true →
       (w1rec.initial_classification = .CLIENT_ONLY ∨
        w1rec.initial_classification = .SERVER_ONLY) ∧
       w1out.final_classification = .UNIVERSAL) ∧
     (w1out.final_classification = w1rec.final_classification ∨
       ((w1rec.final_classification = .CLIENT_ONLY ∨
         w1rec.final_classification = .SERVER_ONLY) ∧
        w1out.final_classification = .UNIVERSAL)) ∧
     w1out.initial_classification = w1rec.initial_classification) :=
  ⟨⟨by decide, by decide, by decide⟩,
   corrector_invariant w1map [] ["a.jar"] (by decide) "a.jar" w1rec w1out
     (by decide) (by decide)⟩

/-! ## Claim C5: side extraction (corrected) -/

/-- A manifest whose dependency block declares an unrecognized side value. -/
def c5Toml : List Char :=
  "modId = \"m\"\n[[dependencies.m]]\nmodId = \"d1\"\nside = \"weird\"\n".data

/-- C5 counterexample: the claim says an unrecognized side value is
normalized to BOTH, but the source keeps the uppercased matched value: the
block declaring side weird yields a Dependency with side WEIRD, not BOTH. -/
theorem side_unrecognized_kept :
    (get_mod_metadata c5Toml).dependencies = [⟨"d1", "WEIRD"⟩] ∧
    ("WEIRD" : String) ≠ "BOTH" := by
  exact ⟨by decide, by decide⟩

/-- C5 (amended): for every dependency block with a resolvable modId, the
produced Dependency has side equal to the uppercasing of the matched side
value whenever the case-insensitive side pattern matches — whether or not
the value is one of CLIENT, SERVER, BOTH — and side BOTH exactly when no
side value is matched in the block. -/
theorem dep_side_uppercased (block : List Char) (depId : List Char)
    (h : searchModId block = some depId) :
    parseDepBlock block = some ⟨String.mk depId,
      match searchSide block with
      | some s => String.mk (s.map Char.toUpper)
      | none => "BOTH"⟩ := by
  unfold parseDepBlock
  rw [h]

/-- The single dependency block of `c5Toml`, as the source splits it. -/
def c5Block : List Char :=
  "[[dependencies.m]]\nmodId = \"d1\"\nside = \"weird\"".data

theorem dep_side_uppercased_witness :
    searchModId c5Block = some ("d1".data) ∧
    parseDepBlock c5Block = some ⟨String.mk ("d1".data),
      match searchSide c5Block with
      | some s => String.mk (s.map Char.toUpper)
      | none => "BOTH"⟩ :=
  ⟨by decide, dep_side_uppercased c5Block ("d1".data) (by decide)⟩

/-! ## Claim C6: dependency block extent (corrected) -/

/-- Does a dependency-table-array header start here? -/
def isHdrStart (l : List Char) : Bool := (matchHdrAt l).isSome

/-- Modelled from the claim C6 wording: consume text until the next
position at which a dependency-table-array header starts, or the end of
text. -/
def claimedBody : Nat → List Char → List Char × List Char
  | 0, l => ([], l)
  | _ + 1, [] => ([], [])
  | fuel + 1, l@(c :: t) =>
    if isHdrStart l then ([], l)
    else
      let p := claimedBody fuel t
      (c :: p.1, p.2)

/-- Modelled from the claim C6 wording: each block starts at a
dependency-table-array header and extends until the NEXT dependency-table-
array header or the end of the text (so that a non-dependency table header
between two dependency headers would not terminate a block). -/
def claimedGo : Nat → List Char → List (List Char)
  | 0, _ => []
  | _ + 1, [] => []
  | fuel + 1, l@(_ :: t) =>
    match matchHdrAt l with
    | some (hdr, afterHdr) =>
      let p := claimedBody fuel afterHdr
      (hdr ++ p.1) :: claimedGo fuel p.2
    | none => claimedGo fuel t

/-- Modelled from the claim C6 wording: the block decomposition the claim
describes. -/
def findDepBlocksClaimed (l : List Char) : List (List Char) :=
  claimedGo l.length l

/-- A manifest with a non-dependency table-array header `[[mods]]` between
a dependency header and a side declaration. -/
def c6Toml : List Char :=
  "[[dependencies.m]]\nmodId = \"d1\"\n[[mods]]\nside = \"CLIENT\"\n".data

/-- C6 counterexample: the source terminates the block at the `[[mods]]`
header (any newline-plus-double-bracket stops a block), while the claim
says only the next DEPENDENCY header or the end of text does; on `c6Toml`
the source and the claimed decomposition disagree, and observably so — the
source yields the dependency with side BOTH where the claimed block would
contain the side=CLIENT declaration. -/
theorem dep_block_extent_counterexample :
    findDepBlocks c6Toml = ["[[dependencies.m]]\nmodId = \"d1\"".data] ∧
    findDepBlocksClaimed c6Toml = [c6Toml] ∧
    findDepBlocks c6Toml ≠ findDepBlocksClaimed c6Toml ∧
    (get_mod_metadata c6Toml).dependencies = [⟨"d1", "BOTH"⟩] ∧
    (findDepBlocksClaimed c6Toml).filterMap parseDepBlock =
      [⟨"d1", "CLIENT"⟩] := by
  exact ⟨by decide, by decide, by decide, by decide, by decide⟩

theorem isPrefixOf_append_self : ∀ l r : List Char, l.isPrefixOf (l ++ r) = true := by
  intro l r
  induction l with
  | nil => simp [List.isPrefixOf]
  | cons a t ih => simp [List.isPrefixOf, ih]

theorem isPrefixOf_exists : ∀ {p l : List Char}, p.isPrefixOf l = true →
    ∃ t, l = p ++ t := by
  intro p
  induction p with
  | nil => exact fun h => ⟨_, rfl⟩
  | cons a ps ih =>
    intro l h
    cases l with
    | nil => simp [List.isPrefixOf] at h
    | cons b bs =>
      simp only [List.isPrefixOf, Bool.and_eq_true] at h
      obtain ⟨hab, hrest⟩ := h
      obtain ⟨t, ht⟩ := ih hrest
      exact ⟨t, by rw [List.cons_append, ← ht, (show a = b by simpa using hab)]⟩

theorem matchLit_false_decomp :
    ∀ (pat l r : List Char), matchLit false pat l = some r → l = pat ++ r := by
  intro pat
  induction pat with
  | nil =>
    intro l r h
    simp only [matchLit] at h
    rw [Option.some.inj h]
    rfl
  | cons p ps ih =>
    intro l r h
    cases l with
    | nil => simp [matchLit] at h
    | cons c cs =>
      simp only [matchLit] at h
      rw [show (if false = true then ciEq p c else p == c) = (p == c) from
        if_neg (by simp)] at h
      by_cases hpc : (p == c) = true
      · rw [if_pos hpc] at h
        have hp : p = c := by simpa using hpc
        rw [List.cons_append, hp]
        rw [ih cs r h]
      · rw [if_neg hpc] at h
        simp at h

theorem hdrClose_decomp :
    ∀ (l p r : List Char), hdrClose l = some (p, r) → l = p ++ r := by
  intro l
  induction l with
  | nil =>
    intro p r h
    exact absurd h (by rw [show hdrClose [] = none from rfl]; simp)
  | cons a t ih =>
    intro p r h
    cases t with
    | nil => exact absurd h (by rw [show hdrClose [a] = none from rfl]; simp)
    | cons b rest =>
      unfold hdrClose at h
      by_cases hab : (a == ']' && b == ']') = true
      · rw [if_pos hab] at h
        obtain ⟨hp, hr⟩ := Prod.mk.injEq .. ▸ Option.some.inj h
        rw [← hp, ← hr]
        rfl
      · rw [if_neg hab] at h
        by_cases han : (a == Char.ofNat 10) = true
        · rw [if_pos han] at h
          simp at h
        · rw [if_neg han] at h
          cases hrec : hdrClose (b :: rest) with
          | none => rw [hrec] at h; simp at h
          | some q =>
            rw [hrec] at h
            simp only [Option.map_some'] at h
            obtain ⟨hp, hr⟩ := Prod.mk.injEq .. ▸ Option.some.inj h
            have := ih q.1 q.2 (by rw [hrec])
            rw [← hp, ← hr, List.cons_append, ← this]

theorem matchHdrAt_decomp {l hdr after : List Char}
    (h : matchHdrAt l = some (hdr, after)) :
    l = hdr ++ after ∧ ("[[dependencies.".data).isPrefixOf hdr = true := by
  unfold matchHdrAt at h
  cases hlit : matchLit false ("[[dependencies.".data) l with
  | none => rw [hlit] at h; simp at h
  | some r =>
    rw [hlit] at h
    have hl := matchLit_false_decomp _ l r hlit
    cases r with
    | nil => simp at h
    | cons c r2 =>
      simp only at h
      by_cases hcn : (c == Char.ofNat 10) = true
      · rw [if_pos hcn] at h
        simp at h
      · rw [if_neg hcn] at h
        cases hcl : hdrClose r2 with
        | none => rw [hcl] at h; simp at h
        | some q =>
          rw [hcl] at h
          simp only [Option.map_some'] at h
          obtain ⟨hp, hr⟩ := Prod.mk.injEq .. ▸ Option.some.inj h
          have hq := hdrClose_decomp r2 q.1 q.2 (by rw [hcl])
          constructor
          · rw [← hp, ← hr, hl, hq]
            simp
          · rw [← hp]
            exact isPrefixOf_append_self _ _

theorem bodyScan_decomp : ∀ l : List Char, (bodyScan l).1 ++ (bodyScan l).2 = l := by
  intro l
  induction l with
  | nil => rfl
  | cons c rest ih =>
    unfold bodyScan
    by_cases hs : stopOK (c :: rest) = true
    · rw [if_pos hs]
      rfl
    · rw [if_neg hs]
      show c :: ((bodyScan rest).1 ++ (bodyScan rest).2) = c :: rest
      rw [ih]

theorem stopOK_of_marker (t r : List Char) :
    stopOK (Char.ofNat 10 :: (('[' :: '[' :: t) ++ r)) = true := rfl

theorem bodyScan_no_marker :
    ∀ l : List Char, hasSub ("\n[[".data) (bodyScan l).1 = false := by
  intro l
  induction l with
  | nil => rfl
  | cons c rest ih =>
    unfold bodyScan
    by_cases hs : stopOK (c :: rest) = true
    · rw [if_pos hs]
      rfl
    · rw [if_neg hs]
      show hasSub ("\n[[".data) (c :: (bodyScan rest).1) = false
      unfold hasSub
      rw [ih, Bool.or_false]
      cases hpre : ("\n[[".data).isPrefixOf (c :: (bodyScan rest).1) with
      | false => rfl
      | true =>
        exfalso
        obtain ⟨t, ht⟩ := isPrefixOf_exists hpre
        have hc : c = Char.ofNat 10 := by
          have h2 := congrArg (fun x => x.head?) ht
          simpa using h2
        have hw : (bodyScan rest).1 = '[' :: '[' :: t := by
          have h3 := congrArg (fun x => x.tail) ht
          simpa using h3
        have hrest : ('[' :: '[' :: t) ++ (bodyScan rest).2 = rest := by
          rw [← hw]
          exact bodyScan_decomp rest
        apply hs
        rw [hc, ← hrest]
        exact stopOK_of_marker t (bodyScan rest).2

/-- The lookahead position is reached exactly when the scan stops: the
suffix a block body leaves behind satisfies the lookahead. -/
theorem bodyScan_stop : ∀ l : List Char, stopOK (bodyScan l).2 = true := by
  intro l
  induction l with
  | nil => rfl
  | cons c rest ih =>
    unfold bodyScan
    by_cases hs : stopOK (c :: rest) = true
    · rw [if_pos hs]
      exact hs
    · rw [if_neg hs]
      exact ih

/-- Minimality of the scan: no position strictly inside the scanned part
satisfies the lookahead. -/
theorem bodyScan_min : ∀ (l : List Char) (j : Nat),
    j < (bodyScan l).1.length → stopOK (l.drop j) = false := by
  intro l
  induction l with
  | nil => intro j h; simp [bodyScan] at h
  | cons c rest ih =>
    intro j h
    unfold bodyScan at h
    by_cases hs : stopOK (c :: rest) = true
    · rw [if_pos hs] at h
      simp at h
    · rw [if_neg hs] at h
      cases j with
      | zero =>
        rw [List.drop_zero]
        cases hb : stopOK (c :: rest) with
        | true => exact absurd hb hs
        | false => rfl
      | succ k =>
        rw [List.drop_succ_cons]
        apply ih
        simp only [List.length_cons] at h
        omega

theorem find?_range'_min (pred : Nat → Bool) :
    ∀ (n s i0 : Nat), s ≤ i0 → i0 < s + n → pred i0 = true →
      (∀ j, s ≤ j → j < i0 → pred j = false) →
      (List.range' s n).find? pred = some i0 := by
  intro n
  induction n with
  | zero =>
    intro s i0 h1 h2 _ _
    omega
  | succ m ih =>
    intro s i0 hs hlt hp hmin
    rw [List.range'_succ]
    by_cases hsi : s = i0
    · subst hsi
      rw [List.find?_cons_of_pos _ hp]
    · have hslt : s < i0 := lt_of_le_of_ne hs hsi
      rw [List.find?_cons_of_neg _ (by rw [hmin s (le_refl s) hslt]; simp)]
      exact ih (s + 1) i0 hslt (by omega) hp (fun j hj1 hj2 => hmin j (by omega) hj2)

/-- Modelled from the amended claim: split a non-empty text into a body and
a remainder where the body extends to the FIRST position, at least one
character in, at which the lookahead (a newline followed by two opening
brackets, the end of text, or a single trailing newline) begins. -/
def amendedSplit (l : List Char) : Option (List Char × List Char) :=
  match (List.range (l.length + 1)).find?
      (fun i => decide (0 < i) && stopOK (l.drop i)) with
  | some i => some (l.take i, l.drop i)
  | none => none

/-- The lazy character-by-character body scan of the source computes
exactly the minimal-index split the amended claim describes. -/
theorem matchBody_eq_amendedSplit : ∀ l : List Char, matchBody l = amendedSplit l := by
  intro l
  cases l with
  | nil => rfl
  | cons c rest =>
    have hstop := bodyScan_stop rest
    have hdecomp := bodyScan_decomp rest
    have hmin := bodyScan_min rest
    rcases hbs : bodyScan rest with ⟨b1, b2⟩
    rw [hbs] at hstop hdecomp hmin
    simp only at hstop hdecomp hmin
    have htake : rest.take b1.length = b1 := by
      rw [← hdecomp]
      exact List.take_left _ _
    have hdrop : rest.drop b1.length = b2 := by
      rw [← hdecomp]
      exact List.drop_left _ _
    have hlenle : b1.length ≤ rest.length := by
      rw [← hdecomp, List.length_append]
      omega
    have hfind : (List.range ((c :: rest).length + 1)).find?
        (fun i => decide (0 < i) && stopOK ((c :: rest).drop i)) =
        some (b1.length + 1) := by
      rw [List.range_eq_range']
      apply find?_range'_min
      · omega
      · simp only [List.length_cons]
        omega
      · show (decide (0 < b1.length + 1) &&
          stopOK ((c :: rest).drop (b1.length + 1))) = true
        rw [List.drop_succ_cons, hdrop, hstop, Bool.and_true]
        exact decide_eq_true (Nat.succ_pos _)
      · intro j _ hjlt
        cases j with
        | zero => rfl
        | succ k =>
          show (decide (0 < k + 1) && stopOK ((c :: rest).drop (k + 1))) = false
          rw [List.drop_succ_cons, hmin k (by omega), Bool.and_false]
    show matchBody (c :: rest) = amendedSplit (c :: rest)
    unfold matchBody amendedSplit
    rw [hfind]
    dsimp only
    rw [hbs]
    dsimp only
    rw [List.take_succ_cons, List.drop_succ_cons, htake, hdrop]

/-- Modelled from the amended claim: the scan over the whole text, block by
block, with each body given by the minimal-index split. -/
def findDepBlocksAmendedGo : Nat → List Char → List (List Char)
  | 0, _ => []
  | _ + 1, [] => []
  | fuel + 1, l@(_ :: t) =>
    match matchHdrAt l with
    | some (hdr, afterHdr) =>
      match amendedSplit afterHdr with
      | some (body, rest) => (hdr ++ body) :: findDepBlocksAmendedGo fuel rest
      | none => findDepBlocksAmendedGo fuel t
    | none => findDepBlocksAmendedGo fuel t

/-- Modelled from the amended claim: the block decomposition the amended
claim describes — each block is a dependency-table-array header plus a
non-empty body extending to the first subsequent lookahead position (any
table-array header start after a newline, or the end of text) — used to
state that the source computes exactly this decomposition. -/
def findDepBlocksAmended (l : List Char) : List (List Char) :=
  findDepBlocksAmendedGo l.length l

theorem findBlocksGo_eq_amended : ∀ (fuel : Nat) (l : List Char),
    findBlocksGo fuel l = findDepBlocksAmendedGo fuel l := by
  intro fuel
  induction fuel with
  | zero => intro l; rfl
  | succ n ih =>
    intro l
    cases l with
    | nil => rfl
    | cons c t =>
      unfold findBlocksGo findDepBlocksAmendedGo
      cases hh : matchHdrAt (c :: t) with
      | none => exact ih t
      | some pr =>
        obtain ⟨hdr, afterHdr⟩ := pr
        dsimp only
        rw [← matchBody_eq_amendedSplit]
        cases hm : matchBody afterHdr with
        | none => exact ih t
        | some bd =>
          obtain ⟨body0, rest0⟩ := bd
          dsimp only
          rw [ih rest0]

/-- No newline occurs in a matched header: its scan refuses newlines. -/
theorem hdrClose_no_newline :
    ∀ (l p r : List Char), hdrClose l = some (p, r) → Char.ofNat 10 ∉ p := by
  intro l
  induction l with
  | nil =>
    intro p r h
    exact absurd h (by rw [show hdrClose [] = none from rfl]; simp)
  | cons a t ih =>
    intro p r h
    cases t with
    | nil => exact absurd h (by rw [show hdrClose [a] = none from rfl]; simp)
    | cons b rest =>
      unfold hdrClose at h
      by_cases hab : (a == ']' && b == ']') = true
      · rw [if_pos hab] at h
        obtain ⟨hp, _⟩ := Prod.mk.injEq .. ▸ Option.some.inj h
        rw [← hp]
        intro hmem
        rcases List.mem_cons.mp hmem with hx | hx
        · rw [Bool.and_eq_true] at hab
          have : a = ']' := by simpa using hab.1
          rw [this] at hx
          exact absurd hx.symm (by decide)
        · rcases List.mem_cons.mp hx with hy | hy
          · rw [Bool.and_eq_true] at hab
            have : b = ']' := by simpa using hab.2
            rw [this] at hy
            exact absurd hy.symm (by decide)
          · simp at hy
      · rw [if_neg hab] at h
        by_cases han : (a == Char.ofNat 10) = true
        · rw [if_pos han] at h
          simp at h
        · rw [if_neg han] at h
          cases hrec : hdrClose (b :: rest) with
          | none => rw [hrec] at h; simp at h
          | some q =>
            rw [hrec] at h
            simp only [Option.map_some'] at h
            obtain ⟨hp, _⟩ := Prod.mk.injEq .. ▸ Option.some.inj h
            rw [← hp]
            intro hmem
            rcases List.mem_cons.mp hmem with hx | hx
            · rw [hx] at han
              simp at han
            · exact ih q.1 q.2 (by rw [hrec]) hx

/-- A matched header contains no newline: the literal part has none, the
first content character was checked, and the closing scan refuses them. -/
theorem matchHdrAt_no_newline {l hdr after : List Char}
    (h : matchHdrAt l = some (hdr, after)) : Char.ofNat 10 ∉ hdr := by
  unfold matchHdrAt at h
  cases hlit : matchLit false ("[[dependencies.".data) l with
  | none => rw [hlit] at h; simp at h
  | some r =>
    rw [hlit] at h
    cases r with
    | nil => simp at h
    | cons c r2 =>
      simp only at h
      by_cases hcn : (c == Char.ofNat 10) = true
      · rw [if_pos hcn] at h
        simp at h
      · rw [if_neg hcn] at h
        cases hcl : hdrClose r2 with
        | none => rw [hcl] at h; simp at h
        | some q =>
          rw [hcl] at h
          simp only [Option.map_some'] at h
          obtain ⟨hp, _⟩ := Prod.mk.injEq .. ▸ Option.some.inj h
          rw [← hp]
          intro hmem
          rcases List.mem_append.mp hmem with hx | hx
          · exact absurd hx (by decide)
          · rcases List.mem_cons.mp hx with hy | hy
            · rw [hy] at hcn
              simp at hcn
            · exact hdrClose_no_newline r2 q.1 q.2 (by rw [hcl]) hy

/-- C6 (amended): the Metadata Extractor splits the manifest into blocks
each of which starts at a dependency-table-array header and whose (always
non-empty) body extends until the first subsequent occurrence of a newline
immediately followed by two opening brackets — the start of ANY
table-array header, dependency-related or not — or to the end of the text
(in Python also just before one trailing newline); and every block without
a resolvable modId is discarded, contributing nothing to the dependency
list.  The extent characterization is stated twice: globally, the source
decomposition equals `findDepBlocksAmended`, whose bodies are defined by
the MINIMAL index (at least one character in) at which the lookahead
begins; and per block, the split into a newline-free header and a
non-empty body is pinned down (the header cannot absorb any of the body,
since the body starts within the header line) and that body contains no
newline-plus-brackets marker beyond its first character. -/
theorem dep_blocks_structure (toml : List Char) :
    (get_mod_metadata toml).dependencies =
      (findDepBlocks toml).filterMap parseDepBlock ∧
    findDepBlocks toml = findDepBlocksAmended toml ∧
    ∀ b ∈ findDepBlocks toml, ∃ hdr body, b = hdr ++ body ∧
      ("[[dependencies.".data).isPrefixOf hdr = true ∧
      Char.ofNat 10 ∉ hdr ∧
      body ≠ [] ∧
      hasSub ("\n[[".data) (body.drop 1) = false := by
  refine ⟨rfl, findBlocksGo_eq_amended toml.length toml, ?_⟩
  unfold findDepBlocks
  generalize toml.length = fuel
  induction fuel generalizing toml with
  | zero => intro b hb; simp [findBlocksGo] at hb
  | succ n ih =>
    intro b hb
    cases toml with
    | nil => simp [findBlocksGo] at hb
    | cons c t =>
      unfold findBlocksGo at hb
      cases hh : matchHdrAt (c :: t) with
      | none =>
        rw [hh] at hb
        exact ih t b hb
      | some pr =>
        obtain ⟨hdr, afterHdr⟩ := pr
        rw [hh] at hb
        dsimp only at hb
        cases hm : matchBody afterHdr with
        | none =>
          rw [hm] at hb
          exact ih t b hb
        | some bd =>
          obtain ⟨body0, rest0⟩ := bd
          rw [hm] at hb
          dsimp only at hb
          rcases List.mem_cons.mp hb with hbeq | hbtail
          · refine ⟨hdr, body0, hbeq, (matchHdrAt_decomp hh).2,
              matchHdrAt_no_newline hh, ?_, ?_⟩
            · cases hah : afterHdr with
              | nil =>
                rw [hah] at hm
                exact absurd hm (by rw [show matchBody [] = none from rfl]; simp)
              | cons x xs =>
                rw [hah] at hm
                unfold matchBody at hm
                have hbd : x :: (bodyScan xs).1 = body0 := by
                  have h4 := Option.some.inj hm
                  exact congrArg Prod.fst h4
                intro hfalse
                rw [← hbd] at hfalse
                exact absurd hfalse (by simp)
            · cases hah : afterHdr with
              | nil =>
                rw [hah] at hm
                exact absurd hm (by rw [show matchBody [] = none from rfl]; simp)
              | cons x xs =>
                rw [hah] at hm
                unfold matchBody at hm
                have hbd : x :: (bodyScan xs).1 = body0 := by
                  have h4 := Option.some.inj hm
                  exact congrArg Prod.fst h4
                rw [← hbd]
                show hasSub ("\n[[".data) ((bodyScan xs).1) = false
                exact bodyScan_no_marker xs
          · exact ih rest0 b hbtail

/-- Witness block for the amended C6: the single block of `c6Toml`. -/
def c6Block : List Char := "[[dependencies.m]]\nmodId = \"d1\"".data

theorem dep_blocks_structure_witness :
    c6Block ∈ findDepBlocks c6Toml ∧
    findDepBlocks c6Toml = findDepBlocksAmended c6Toml ∧
    (∃ hdr body, c6Block = hdr ++ body ∧
      ("[[dependencies.".data).isPrefixOf hdr = true ∧
      Char.ofNat 10 ∉ hdr ∧
      body ≠ [] ∧
      hasSub ("\n[[".data) (body.drop 1) = false) :=
  ⟨by decide, (dep_blocks_structure c6Toml).2.1,
   (dep_blocks_structure c6Toml).2.2 c6Block (by decide)⟩

/-! ## Claim C10: enumeration order -/

theorem lexLe_total : ∀ a b : List Char, lexLe a b = true ∨ lexLe b a = true := by
  intro a
  induction a with
  | nil => intro b; exact Or.inl rfl
  | cons x xs ih =>
    intro b
    cases b with
    | nil => exact Or.inr rfl
    | cons y ys =>
      unfold lexLe
      by_cases h1 : x.toNat < y.toNat
      · left
        rw [if_pos h1]
      · by_cases h2 : y.toNat < x.toNat
        · right
          rw [if_pos h2]
        · rw [if_neg h1, if_neg h2, if_neg h2, if_neg h1]
          exact ih ys

theorem lexLe_trans : ∀ a b c : List Char,
    lexLe a b = true → lexLe b c = true → lexLe a c = true := by
  intro a
  induction a with
  | nil => intro b c _ _; rfl
  | cons x xs ih =>
    intro b c hab hbc
    cases b with
    | nil => simp [lexLe] at hab
    | cons y ys =>
      cases c with
      | nil => simp [lexLe] at hbc
      | cons z zs =>
        unfold lexLe at hab hbc ⊢
        by_cases hxy : x.toNat < y.toNat
        · by_cases hyz : y.toNat < z.toNat
          · rw [if_pos (by omega : x.toNat < z.toNat)]
          · rw [if_neg hyz] at hbc
            by_cases hzy : z.toNat < y.toNat
            · rw [if_pos hzy] at hbc
              simp at hbc
            · rw [if_pos (by omega : x.toNat < z.toNat)]
        · rw [if_neg hxy] at hab
          by_cases hyx : y.toNat < x.toNat
          · rw [if_pos hyx] at hab
            simp at hab
          · rw [if_neg hyx] at hab
            by_cases hyz : y.toNat < z.toNat
            · rw [if_pos (by omega : x.toNat < z.toNat)]
            · rw [if_neg hyz] at hbc
              by_cases hzy : z.toNat < y.toNat
              · rw [if_pos hzy] at hbc
                simp at hbc
              · rw [if_neg hzy] at hbc
                rw [if_neg (by omega : ¬ x.toNat < z.toNat),
                  if_neg (by omega : ¬ z.toNat < x.toNat)]
                exact ih ys zs hab hbc

instance : IsTotal String leCI :=
  ⟨fun a b => lexLe_total (a.data.map Char.toLower) (b.data.map Char.toLower)⟩

instance : IsTrans String leCI :=
  ⟨fun a b c hab hbc => lexLe_trans (a.data.map Char.toLower)
    (b.data.map Char.toLower) (c.data.map Char.toLower) hab hbc⟩

/-- The record Stage 1 ends up storing for a directory entry. -/
def recordFor : JarOpen → ModRecord
  | .ok ar => mkOkRecord ar
  | .fail e => errorRecord e

theorem collectStep_fst (dir : ModsDir) (acc : Dict ModRecord × Dict String)
    (fn : String) :
    (collectStep dir acc fn).1 = dset acc.1 fn (recordFor (dirOpen dir fn)) := by
  unfold collectStep recordFor
  cases dirOpen dir fn <;> rfl

theorem dset_not_found {α : Type} (d : Dict α) (k : String) (v : α)
    (h : k ∉ dkeys d) : dset d k v = d ++ [(k, v)] := by
  unfold dset
  rw [if_neg]
  intro hs
  obtain ⟨p, hp⟩ := Option.isSome_iff_exists.mp hs
  have hmem := List.mem_of_find?_eq_some hp
  have hpk : p.1 = k := by
    simpa using (@List.find?_some _ (fun q => q.1 == k) p d hp)
  exact h (hpk ▸ List.mem_map_of_mem Prod.fst hmem)

theorem dkeys_append_one {α : Type} (d : Dict α) (k : String) (v : α) :
    dkeys (d ++ [(k, v)]) = dkeys d ++ [k] := by
  unfold dkeys
  rw [List.map_append]
  rfl

theorem collectPhase_keys_aux (dir : ModsDir) :
    ∀ (names : List String) (acc : Dict ModRecord × Dict String),
      names.Nodup → (∀ fn ∈ names, fn ∉ dkeys acc.1) →
      dkeys (names.foldl (collectStep dir) acc).1 = dkeys acc.1 ++ names := by
  intro names
  induction names with
  | nil => intro acc _ _; simp
  | cons n rest ih =>
    intro acc hnd hdisj
    have hstep : dkeys (collectStep dir acc n).1 = dkeys acc.1 ++ [n] := by
      rw [collectStep_fst, dset_not_found _ _ _ (hdisj n (List.mem_cons_self n rest)),
        dkeys_append_one]
    show dkeys (rest.foldl (collectStep dir) (collectStep dir acc n)).1 =
      dkeys acc.1 ++ n :: rest
    rw [ih (collectStep dir acc n) (List.nodup_cons.mp hnd).2 ?hdisj2, hstep,
      List.append_assoc, List.singleton_append]
    case hdisj2 =>
      intro fn hfn
      rw [hstep]
      intro hmem
      rcases List.mem_append.mp hmem with hx | hx
      · exact hdisj fn (List.mem_cons_of_mem n hfn) hx
      · have : fn = n := by simpa using hx
        exact ((List.nodup_cons.mp hnd).1) (this ▸ hfn)

theorem collectPhase_get_aux (dir : ModsDir) :
    ∀ (names : List String) (acc : Dict ModRecord × Dict String) (fn : String),
      dget (names.foldl (collectStep dir) acc).1 fn =
        if fn ∈ names then some (recordFor (dirOpen dir fn))
        else dget acc.1 fn := by
  intro names
  induction names with
  | nil => intro acc fn; simp
  | cons n rest ih =>
    intro acc fn
    show dget (rest.foldl (collectStep dir) (collectStep dir acc n)).1 fn = _
    rw [ih]
    by_cases hr : fn ∈ rest
    · rw [if_pos hr, if_pos (List.mem_cons_of_mem n hr)]
    · rw [if_neg hr]
      rw [collectStep_fst]
      by_cases hfn : fn = n
      · subst hfn
        rw [dget_dset_self, if_pos (List.mem_cons_self fn rest)]
      · rw [dget_dset_ne _ _ _ _ hfn,
          if_neg (by
            intro hmem
            rcases List.mem_cons.mp hmem with hx | hx
            · exact hfn hx
            · exact hr hx)]

/-- Every jar name that is in the listing and ends in .jar (lowercased) is
enumerated. -/
theorem mem_jar_files {names : List String} {fn : String}
    (hmem : fn ∈ names) (hjar : isJarName fn = true) : fn ∈ jar_files names := by
  unfold jar_files
  rw [List.mem_filter]
  exact ⟨(List.perm_insertionSort leCI names).mem_iff.mpr hmem, hjar⟩

/-- C10: archive enumeration order — the order driving both the modId
index last-write-wins and the single forward correction sweep — is the
case-insensitive lexicographic order (by lowercased name) restricted to
names with a case-insensitive .jar suffix: the correction phase iterates
exactly the sequence the collection phase iterates; that sequence is
`jar_files` of the listing; it is pairwise ordered by the case-insensitive
comparison and is a permutation of the .jar-filtered listing; and the
collection phase materializes its records in exactly this key order. -/
theorem enumeration_order (dir : ModsDir) (hnd : (listdir dir).Nodup) :
    correctionOrder dir = collectionOrder dir ∧
    collectionOrder dir = jar_files (listdir dir) ∧
    List.Pairwise leCI (collectionOrder dir) ∧
    (collectionOrder dir).Perm ((listdir dir).filter isJarName) ∧
    dkeys (collectPhase dir).1 = collectionOrder dir := by
  refine ⟨rfl, rfl, ?_, ?_, ?_⟩
  · exact List.Pairwise.filter isJarName
      (List.sorted_insertionSort leCI (listdir dir))
  · exact (List.perm_insertionSort leCI (listdir dir)).filter isJarName
  · have hndjar : (jar_files (listdir dir)).Nodup :=
      List.Nodup.filter isJarName
        ((List.perm_insertionSort leCI (listdir dir)).nodup_iff.mpr hnd)
    have := collectPhase_keys_aux dir (jar_files (listdir dir)) ([], [])
      hndjar (by intro fn _ hx; simp [dkeys] at hx)
    simpa [collectPhase, collectionOrder] using this

/-- Witness directory for C10 and C9: one unreadable jar, one readable jar,
one non-jar file. -/
def wDir : ModsDir :=
  [("B.jar", .fail "boom"),
   ("a.jar", .ok ⟨[("a.class", some ("net/minecraft/client/".data))]⟩),
   ("notes.txt", .ok ⟨[]⟩)]

theorem enumeration_order_witness :
    (listdir wDir).Nodup ∧
    (correctionOrder wDir = collectionOrder wDir ∧
     collectionOrder wDir = jar_files (listdir wDir) ∧
     List.Pairwise leCI (collectionOrder wDir) ∧
     (collectionOrder wDir).Perm ((listdir wDir).filter isJarName) ∧
     dkeys (collectPhase wDir).1 = collectionOrder wDir) :=
  ⟨by decide, enumeration_order wDir (by decide)⟩

/-! ## Claim C9: unreadable archives -/

theorem collectStep_snd_ok (dir : ModsDir)
    (acc : Dict ModRecord × Dict String) (n : String)
    (hacc : ∀ mid fn, dget acc.2 mid = some fn →
      ∃ ar, dirOpen dir fn = JarOpen.ok ar) :
    ∀ mid fn, dget (collectStep dir acc n).2 mid = some fn →
      ∃ ar, dirOpen dir fn = JarOpen.ok ar := by
  intro mid fn h
  unfold collectStep at h
  cases ho : dirOpen dir n with
  | ok ar =>
    rw [ho] at h
    dsimp only at h
    cases hmid : (mkOkRecord ar).modId with
    | none =>
      rw [hmid] at h
      exact hacc mid fn h
    | some mid0 =>
      rw [hmid] at h
      by_cases hm : mid = mid0
      · subst hm
        rw [dget_dset_self] at h
        exact ⟨ar, (Option.some.inj h) ▸ ho⟩
      · rw [dget_dset_ne _ _ _ _ hm] at h
        exact hacc mid fn h
  | fail e =>
    rw [ho] at h
    exact hacc mid fn h

theorem collectPhase_idx_ok (dir : ModsDir) :
    ∀ (names : List String) (acc : Dict ModRecord × Dict String),
      (∀ mid fn, dget acc.2 mid = some fn →
        ∃ ar, dirOpen dir fn = JarOpen.ok ar) →
      ∀ mid fn, dget (names.foldl (collectStep dir) acc).2 mid = some fn →
        ∃ ar, dirOpen dir fn = JarOpen.ok ar := by
  intro names
  induction names with
  | nil => exact fun acc hacc => hacc
  | cons n rest ih =>
    intro acc hacc
    exact ih (collectStep dir acc n) (collectStep_snd_ok dir acc n hacc)

/-- A record whose initial classification is ERROR is never touched by the
correction sweep. -/
theorem runCorrection_error_fixed (idx : Dict String) :
    ∀ (names : List String) (acc : Dict ModRecord × Nat) (fn : String)
      (r : ModRecord), dget acc.1 fn = some r →
      r.initial_classification = .ERROR →
      dget (names.foldl (correctStep idx) acc).1 fn = some r := by
  intro names
  induction names with
  | nil => exact fun acc fn r h _ => h
  | cons n rest ih =>
    intro acc fn r h herr
    apply ih (correctStep idx acc n) fn r ?hstep herr
    case hstep =>
      by_cases hfn : fn = n
      · subst hfn
        unfold correctStep
        rw [h]
        dsimp only
        rw [if_pos herr]
        exact h
      · unfold correctStep
        cases hg : dget acc.1 n with
        | none => exact h
        | some info =>
          dsimp only
          by_cases he : info.initial_classification = Classification.ERROR
          · rw [if_pos he]
            exact h
          · rw [if_neg he]
            by_cases hcs : info.initial_classification = Classification.SERVER_ONLY ∨
                info.initial_classification = Classification.CLIENT_ONLY
            · rw [if_pos hcs]
              rw [dget_dset_ne _ _ _ _ hfn]
              exact h
            · rw [if_neg hcs]
              exact h

/-- C9: an archive that cannot be opened yields a record classified ERROR
(initially and finally) whose reason carries the underlying failure text;
its modId never reaches the index (every index entry points to an archive
that opened successfully); the Dependency Corrector leaves its record
untouched; the record still appears among the report entries and its
archival bucket is the error folder; and the run continues — every
enumerated jar, this one included, has a record after collection. -/
theorem error_archive_isolation (dir : ModsDir) (fn : String) (e : String)
    (hfail : dirOpen dir fn = .fail e)
    (hmem : fn ∈ listdir dir)
    (hjar : isJarName fn = true) :
    dget (collectPhase dir).1 fn = some (errorRecord e) ∧
    (errorRecord e).initial_classification = .ERROR ∧
    (errorRecord e).final_classification = .ERROR ∧
    (errorRecord e).initial_reason = .readErrorJar e ∧
    (∀ mid fn2, dget (collectPhase dir).2 mid = some fn2 →
      ∃ ar, dirOpen dir fn2 = JarOpen.ok ar) ∧
    dget (runPipeline dir).1 fn = some (errorRecord e) ∧
    (fn, errorRecord e) ∈ reportEntries (runPipeline dir).1 ∧
    category_folders (errorRecord e).final_classification = "5_Errors" ∧
    (∀ fn2 ∈ jar_files (listdir dir),
      (dget (collectPhase dir).1 fn2).isSome = true) := by
  have hjf : fn ∈ jar_files (listdir dir) := mem_jar_files hmem hjar
  have hget : dget (collectPhase dir).1 fn = some (errorRecord e) := by
    unfold collectPhase collectionOrder
    rw [collectPhase_get_aux dir _ ([], []) fn, if_pos hjf, hfail]
    rfl
  have hpipe : dget (runPipeline dir).1 fn = some (errorRecord e) := by
    unfold runPipeline runCorrection
    exact runCorrection_error_fixed (collectPhase dir).2 (correctionOrder dir)
      ((collectPhase dir).1, 0) fn (errorRecord e) hget rfl
  refine ⟨hget, rfl, rfl, rfl, ?_, hpipe, ?_, rfl, ?_⟩
  · intro mid fn2 h
    apply collectPhase_idx_ok dir (collectionOrder dir) ([], []) ?base mid fn2
    · exact h
    case base =>
      intro mid0 fn0 h0
      exact absurd h0 (by rw [dget_nil]; simp)
  · have hmem2 : (fn, errorRecord e) ∈ (runPipeline dir).1 := dget_mem hpipe
    unfold reportEntries
    exact (List.perm_insertionSort
      (fun p q => leCI p.1 q.1) (runPipeline dir).1).mem_iff.mpr hmem2
  · intro fn2 hfn2
    unfold collectPhase collectionOrder
    rw [collectPhase_get_aux dir _ ([], []) fn2, if_pos hfn2]
    rfl

theorem error_archive_isolation_witness :
    (dirOpen wDir "B.jar" = .fail "boom" ∧
     "B.jar" ∈ listdir wDir ∧
     isJarName "B.jar" = true) ∧
    (dget (collectPhase wDir).1 "B.jar" = some (errorRecord "boom") ∧
     (errorRecord "boom").initial_classification = .ERROR ∧
     (errorRecord "boom").final_classification = .ERROR ∧
     (errorRecord "boom").initial_reason = .readErrorJar "boom" ∧
     (∀ mid fn2, dget (collectPhase wDir).2 mid = some fn2 →
       ∃ ar, dirOpen wDir fn2 = JarOpen.ok ar) ∧
     dget (runPipeline wDir).1 "B.jar" = some (errorRecord "boom") ∧
     ("B.jar", errorRecord "boom") ∈ reportEntries (runPipeline wDir).1 ∧
     category_folders (errorRecord "boom").final_classification = "5_Errors" ∧
     (∀ fn2 ∈ jar_files (listdir wDir),
       (dget (collectPhase wDir).1 fn2).isSome = true)) :=
  ⟨⟨by decide, by decide, by decide⟩,
   error_archive_isolation wDir "B.jar" "boom" (by decide) (by decide) (by decide)⟩

/-! ## Claim C8: conditional idempotence of the correction sweep -/

/-- Reinterpreting the output of one run as the input of a second run, as
the claim words it: the second run is given the final classifications of
the first as its initial classifications. -/
def resetRecord (r : ModRecord) : ModRecord :=
  { r with initial_classification := r.final_classification }

def resetInitial (m : Dict ModRecord) : Dict ModRecord :=
  List.map (fun p => (p.1, resetRecord p.2)) m

/-- The sweep state just before the record at position i is processed. -/
def sweepAcc (m : Dict ModRecord) (idx : Dict String) (names : List String)
    (i : Nat) : Dict ModRecord × Nat :=
  (names.take i).foldl (correctStep idx) (m, 0)

/-- Stability of one dependency of one scanned record: ignored, or
side=BOTH, or its resolution qualifies at scan time exactly when it
qualifies at the end of the pass (the claim precondition: the resolved
record is not itself awaiting correction at the time the depending record
is scanned). -/
def depStableOne (idx : Dict String) (s fin : Dict ModRecord)
    (dep : Dependency) : Bool :=
  IGNORED_DEPENDENCIES.contains dep.modId ||
  (pyUpper dep.side == "BOTH") ||
  (depQualifies idx s dep == depQualifies idx fin dep)

/-- The claim precondition over the whole sweep: for every scanned
single-side record, every one of its dependencies is stable between its
scan-time state and the final state of the pass. -/
def depsStable (m : Dict ModRecord) (idx : Dict String)
    (names : List String) : Bool :=
  (List.range names.length).all fun i =>
    match names.get? i with
    | none => true
    | some fn =>
      match dget (sweepAcc m idx names i).1 fn with
      | none => true
      | some info =>
        if info.initial_classification == Classification.SERVER_ONLY ||
            info.initial_classification == Classification.CLIENT_ONLY then
          info.dependencies.all
            (depStableOne idx (sweepAcc m idx names i).1
              (runCorrection m idx names).1)
        else true

theorem correctStep_get_ne (idx : Dict String) (acc : Dict ModRecord × Nat)
    (n fn : String) (hfn : fn ≠ n) :
    dget (correctStep idx acc n).1 fn = dget acc.1 fn := by
  unfold correctStep
  cases hg : dget acc.1 n with
  | none => rfl
  | some info =>
    dsimp only
    by_cases he : info.initial_classification = Classification.ERROR
    · rw [if_pos he]
    · rw [if_neg he]
      by_cases hcs : info.initial_classification = Classification.SERVER_ONLY ∨
          info.initial_classification = Classification.CLIENT_ONLY
      · rw [if_pos hcs]
        exact dget_dset_ne _ _ _ _ hfn
      · rw [if_neg hcs]

theorem sweep_get_notmem (idx : Dict String) :
    ∀ (ns : List String) (acc : Dict ModRecord × Nat) (fn : String),
      fn ∉ ns → dget ((ns.foldl (correctStep idx) acc).1) fn = dget acc.1 fn := by
  intro ns
  induction ns with
  | nil => intro acc fn _; rfl
  | cons n rest ih =>
    intro acc fn hfn
    have h1 : fn ≠ n := fun h => hfn (h ▸ List.mem_cons_self n rest)
    show dget ((rest.foldl (correctStep idx) (correctStep idx acc n)).1) fn = _
    rw [ih _ fn (fun h => hfn (List.mem_cons_of_mem n h)),
      correctStep_get_ne idx acc n fn h1]

theorem correctStep_keys (idx : Dict String) (acc : Dict ModRecord × Nat)
    (n : String) : dkeys (correctStep idx acc n).1 = dkeys acc.1 := by
  unfold correctStep
  cases hg : dget acc.1 n with
  | none => rfl
  | some info =>
    dsimp only
    by_cases he : info.initial_classification = Classification.ERROR
    · rw [if_pos he]
    · rw [if_neg he]
      by_cases hcs : info.initial_classification = Classification.SERVER_ONLY ∨
          info.initial_classification = Classification.CLIENT_ONLY
      · rw [if_pos hcs]
        exact dkeys_dset_of_found _ _ _ (find?_isSome_of_dget hg)
      · rw [if_neg hcs]

theorem sweep_keys (idx : Dict String) :
    ∀ (ns : List String) (acc : Dict ModRecord × Nat),
      dkeys ((ns.foldl (correctStep idx) acc).1) = dkeys acc.1 := by
  intro ns
  induction ns with
  | nil => intro acc; rfl
  | cons n rest ih =>
    intro acc
    show dkeys ((rest.foldl (correctStep idx) (correctStep idx acc n)).1) = _
    rw [ih, correctStep_keys]

theorem dget_resetInitial (m : Dict ModRecord) (k : String) :
    dget (resetInitial m) k = (dget m k).map resetRecord := by
  induction m with
  | nil => rfl
  | cons a t ih =>
    show dget ((a.1, resetRecord a.2) ::
      List.map (fun p => (p.1, resetRecord p.2)) t) k = _
    cases hk : (a.1 == k) with
    | true =>
      rw [dget_cons_pos _ (show ((a.1, resetRecord a.2).1 == k) = true from hk),
        dget_cons_pos t hk]
      rfl
    | false =>
      rw [dget_cons_neg _ (show ((a.1, resetRecord a.2).1 == k) = false from hk),
        dget_cons_neg t hk]
      exact ih

theorem dkeys_resetInitial (m : Dict ModRecord) :
    dkeys (resetInitial m) = dkeys m := by
  unfold dkeys resetInitial
  rw [List.map_map]
  rfl

theorem depQualifies_reset (idx : Dict String) (m : Dict ModRecord)
    (dep : Dependency) :
    depQualifies idx (resetInitial m) dep = depQualifies idx m dep := by
  unfold depQualifies
  cases hq : dget idx dep.modId with
  | none => rfl
  | some fn =>
    dsimp only
    by_cases hfe : (fn == "") = true
    · rw [if_pos hfe, if_pos hfe]
    · rw [if_neg hfe, if_neg hfe, dget_resetInitial]
      cases dget m fn with
      | none => rfl
      | some r => rfl

theorem correctDeps_congr (idx : Dict String) (m1 m2 : Dict ModRecord)
    (info : ModRecord) :
    ∀ deps : List Dependency,
      (∀ dep ∈ deps, IGNORED_DEPENDENCIES.contains dep.modId = true ∨
        (pyUpper dep.side == "BOTH") = true ∨
        depQualifies idx m1 dep = depQualifies idx m2 dep) →
      correctDeps idx m1 info deps = correctDeps idx m2 info deps := by
  intro deps
  induction deps with
  | nil => intro _; rfl
  | cons dep rest ih =>
    intro hall
    have htl : ∀ d ∈ rest, _ := fun d hd => hall d (List.mem_cons_of_mem dep hd)
    cases hni : IGNORED_DEPENDENCIES.contains dep.modId with
    | true =>
      rw [correctDeps_cons_ignored idx m1 info dep rest hni,
        correctDeps_cons_ignored idx m2 info dep rest hni]
      exact ih htl
    | false =>
      cases hb : (pyUpper dep.side == "BOTH") with
      | true =>
        rw [correctDeps_cons_both idx m1 info dep rest hni hb,
          correctDeps_cons_both idx m2 info dep rest hni hb]
      | false =>
        have hq : depQualifies idx m1 dep = depQualifies idx m2 dep := by
          rcases hall dep (List.mem_cons_self dep rest) with hx | hx | hx
          · rw [hni] at hx; exact absurd hx (by simp)
          · rw [hb] at hx; exact absurd hx (by simp)
          · exact hx
        rw [correctDeps_cons_resolve idx m1 info dep rest hni hb,
          correctDeps_cons_resolve idx m2 info dep rest hni hb, hq]
        cases hqv : depQualifies idx m2 dep with
        | true => rw [if_pos rfl, if_pos rfl]
        | false =>
          rw [if_neg (by simp), if_neg (by simp)]
          exact ih htl

theorem nodup_get_notmem_take :
    ∀ (l : List String) (k : Nat) (fn : String), l.Nodup →
      l.get? k = some fn → fn ∉ l.take k := by
  intro l
  induction l with
  | nil => intro k fn _ h; simp at h
  | cons n rest ih =>
    intro k fn hnd hget
    cases k with
    | zero => simp
    | succ j =>
      rw [List.take_succ_cons]
      intro hmem
      rcases List.mem_cons.mp hmem with hx | hx
      · have hfn_rest : fn ∈ rest := List.get?_mem (by simpa using hget)
        exact (List.nodup_cons.mp hnd).1 (hx ▸ hfn_rest)
      · exact ih j fn (List.nodup_cons.mp hnd).2 (by simpa using hget) hx

theorem nodup_get_notmem_drop :
    ∀ (l : List String) (k : Nat) (fn : String), l.Nodup →
      l.get? k = some fn → fn ∉ l.drop (k + 1) := by
  intro l
  induction l with
  | nil => intro k fn _ h; simp at h
  | cons n rest ih =>
    intro k fn hnd hget
    cases k with
    | zero =>
      have hfn : n = fn := by simpa using hget
      have hfn := hfn.symm
      rw [List.drop_succ_cons, List.drop_zero]
      subst hfn
      exact (List.nodup_cons.mp hnd).1
    | succ j =>
      rw [List.drop_succ_cons]
      exact ih j fn (List.nodup_cons.mp hnd).2 (by simpa using hget)

/-- C8: running the Dependency Corrector a second time, with the first
pass output as the second pass input (final classifications taken as the
new initial classifications, wasCorrected flags carried over), makes no
further corrections and leaves the record map unchanged — under the
claimed precondition that no scanned record has a dependency whose
resolved classification was still awaiting correction at the time the
record was scanned (`depsStable`), plus the Stage 1 record shape and
uniqueness of keys and of enumerated names. -/
theorem corrector_idempotent (m : Dict ModRecord) (idx : Dict String)
    (names : List String)
    (h1 : ∀ p ∈ m, p.2.final_classification = p.2.initial_classification ∧
      p.2.was_corrected = false)
    (h2 : (dkeys m).Nodup)
    (h3 : names.Nodup)
    (h4 : depsStable m idx names = true) :
    runCorrection (resetInitial (runCorrection m idx names).1) idx names =
      (resetInitial (runCorrection m idx names).1, 0) := by
  have hkeysfin : dkeys (runCorrection m idx names).1 = dkeys m :=
    sweep_keys idx names (m, 0)
  have hkeysm2 : dkeys (resetInitial (runCorrection m idx names).1) =
      dkeys m := by rw [dkeys_resetInitial, hkeysfin]
  have hstep : ∀ (k : Nat) (fn : String), k < names.length →
      names.get? k = some fn →
      correctStep idx (resetInitial (runCorrection m idx names).1, 0) fn =
        (resetInitial (runCorrection m idx names).1, 0) := by
    intro k fn hk hfn
    have hm2get : dget (resetInitial (runCorrection m idx names).1) fn =
        (dget (runCorrection m idx names).1 fn).map resetRecord :=
      dget_resetInitial _ fn
    cases hfing : dget (runCorrection m idx names).1 fn with
    | none =>
      have hnone : dget (resetInitial (runCorrection m idx names).1) fn = none := by
        rw [hm2get, hfing]
        rfl
      unfold correctStep
      rw [hnone]
    | some finr =>
      have hr2 : dget (resetInitial (runCorrection m idx names).1) fn =
          some (resetRecord finr) := by
        rw [hm2get, hfing]
        rfl
      unfold correctStep
      rw [hr2]
      dsimp only
      by_cases he : (resetRecord finr).initial_classification = Classification.ERROR
      · rw [if_pos he]
      · rw [if_neg he]
        by_cases hcs : (resetRecord finr).initial_classification =
            Classification.SERVER_ONLY ∨
            (resetRecord finr).initial_classification = Classification.CLIENT_ONLY
        · rw [if_pos hcs]
          have hfinal : finr.final_classification = Classification.SERVER_ONLY ∨
              finr.final_classification = Classification.CLIENT_ONLY := hcs
          have hev := runCorrection_evolved idx m names (m, 0)
            (mapEvolved_refl m) fn
          rcases hev with ⟨_, hn⟩ | ⟨o, c, ho, hc, hev⟩
          · exfalso
            have hn2 : dget (runCorrection m idx names).1 fn = none := hn
            rw [hfing] at hn2
            exact absurd hn2 (by simp)
          · have hc2 : dget (runCorrection m idx names).1 fn = some c := hc
            rw [hfing] at hc2
            have hcf : finr = c := Option.some.inj hc2
            obtain ⟨hfi, hwc⟩ := h1 (fn, o) (dget_mem ho)
            simp only at hfi hwc
            rcases hev with hsame | ⟨hio, reason, hcor⟩
            · have hfo : finr = o := hcf.trans hsame
              have hoinit : o.initial_classification = Classification.SERVER_ONLY ∨
                  o.initial_classification = Classification.CLIENT_ONLY := by
                rcases hfinal with hx | hx
                · left
                  rw [← hfi, ← hfo]
                  exact hx
                · right
                  rw [← hfi, ← hfo]
                  exact hx
              have hreset : resetRecord finr = o := by
                rw [hfo]
                unfold resetRecord
                cases o with
                | mk a b c d e f g =>
                  simp only at hfi
                  simp [hfi]
              have hnotmemtake : fn ∉ names.take k :=
                nodup_get_notmem_take names k fn h3 hfn
              have hso : dget (sweepAcc m idx names k).1 fn = some o := by
                unfold sweepAcc
                rw [sweep_get_notmem idx _ _ fn hnotmemtake]
                exact ho
              have hnotmemdrop : fn ∉ names.drop (k + 1) :=
                nodup_get_notmem_drop names k fn h3 hfn
              have hgetelem : names[k]? = some fn := by
                rw [← List.get?_eq_getElem?]
                exact hfn
              have hfin_at : dget (runCorrection m idx names).1 fn =
                  dget (correctStep idx (sweepAcc m idx names k) fn).1 fn := by
                have hsplit : names.take (k + 1) ++ names.drop (k + 1) = names :=
                  List.take_append_drop _ _
                have hrw : (runCorrection m idx names).1 =
                    ((names.drop (k + 1)).foldl (correctStep idx)
                      ((names.take (k + 1)).foldl (correctStep idx) (m, 0))).1 := by
                  show ((names.foldl (correctStep idx) (m, 0))).1 = _
                  rw [← List.foldl_append, hsplit]
                rw [hrw, sweep_get_notmem idx _ _ fn hnotmemdrop,
                  List.take_succ, hgetelem, List.foldl_append]
                rfl
              have hstep1 : dget (correctStep idx (sweepAcc m idx names k) fn).1 fn =
                  some ((correctDeps idx (sweepAcc m idx names k).1 o
                    o.dependencies).1) := by
                unfold correctStep
                rw [hso]
                dsimp only
                rw [if_neg (by rcases hoinit with hx | hx <;> rw [hx] <;> simp)]
                rw [if_pos hoinit]
                exact dget_dset_self _ _ _
              have hfinr_eq : finr =
                  (correctDeps idx (sweepAcc m idx names k).1 o
                    o.dependencies).1 := by
                have hx := hfing
                rw [hfin_at, hstep1] at hx
                exact (Option.some.inj hx).symm
              have hrun1 : correctDeps idx (sweepAcc m idx names k).1 o
                  o.dependencies = (o, false) := by
                rcases correctDeps_cases idx (sweepAcc m idx names k).1 o
                    o.dependencies with hx | ⟨reason2, hx⟩
                · exact hx
                · exfalso
                  rw [hx] at hfinr_eq
                  rcases hfinal with hy | hy <;> rw [hfinr_eq] at hy <;>
                    exact absurd hy (by simp)
              have hstab := List.all_eq_true.mp h4 k (List.mem_range.mpr hk)
              rw [hfn] at hstab
              dsimp only at hstab
              rw [hso] at hstab
              dsimp only at hstab
              have hbool : (o.initial_classification == Classification.SERVER_ONLY ||
                  o.initial_classification == Classification.CLIENT_ONLY) = true := by
                rcases hoinit with hx | hx <;> rw [hx] <;> rfl
              rw [if_pos hbool] at hstab
              have hcongr : correctDeps idx
                  (resetInitial (runCorrection m idx names).1) o o.dependencies =
                  correctDeps idx (sweepAcc m idx names k).1 o o.dependencies := by
                apply correctDeps_congr
                intro dep hdep
                have hone := List.all_eq_true.mp hstab dep hdep
                unfold depStableOne at hone
                rw [Bool.or_eq_true, Bool.or_eq_true] at hone
                rcases hone with (hx | hx) | hx
                · exact Or.inl hx
                · exact Or.inr (Or.inl hx)
                · right
                  right
                  have hq : depQualifies idx (sweepAcc m idx names k).1 dep =
                      depQualifies idx (runCorrection m idx names).1 dep := by
                    simpa using hx
                  rw [depQualifies_reset]
                  exact hq.symm
              rw [hreset, hcongr, hrun1]
              have hdset : dset (resetInitial (runCorrection m idx names).1) fn o =
                  resetInitial (runCorrection m idx names).1 := by
                apply dset_self
                · rw [hkeysm2]
                  exact h2
                · rw [hr2, hreset]
              show (dset (resetInitial (runCorrection m idx names).1) fn o,
                (0 : Nat) + if false = true then 1 else 0) = _
              rw [hdset]
              rfl
            · exfalso
              rw [← hcf] at hcor
              rcases hfinal with hx | hx <;> rw [hcor] at hx <;>
                exact absurd hx (by simp)
        · rw [if_neg hcs]
  have hrun : ∀ k, k ≤ names.length →
      (names.take k).foldl (correctStep idx)
        (resetInitial (runCorrection m idx names).1, 0) =
        (resetInitial (runCorrection m idx names).1, 0) := by
    intro k
    induction k with
    | zero => intro _; rfl
    | succ j ihj =>
      intro hk
      have hj : j < names.length := Nat.lt_of_succ_le hk
      have hget : ∃ fn, names.get? j = some fn := by
        cases hg : names.get? j with
        | none =>
          exfalso
          have := List.get?_eq_none.mp hg
          omega
        | some fn => exact ⟨fn, rfl⟩
      obtain ⟨fn, hfn⟩ := hget
      have hgetelem : names[j]? = some fn := by
        rw [← List.get?_eq_getElem?]
        exact hfn
      rw [List.take_succ, hgetelem, List.foldl_append, ihj (Nat.le_of_lt hj)]
      exact hstep j fn hj hfn
  have hfinal2 := hrun names.length (le_refl _)
  rw [List.take_length] at hfinal2
  exact hfinal2

/-- Witness inputs for C8: a UNIVERSAL record enumerated before a
CLIENT_ONLY record that depends on it, so the first pass corrects the
latter and the second pass has nothing left to do. -/
def w8recU : ModRecord :=
  { modId := some "u", dependencies := [],
    initial_classification := .UNIVERSAL,
    initial_reason := .universalAssetsFallback,
    final_classification := .UNIVERSAL,
    was_corrected := false, correction_reason := none }

def w8recC : ModRecord :=
  { modId := some "c", dependencies := [⟨"u", "CLIENT"⟩],
    initial_classification := .CLIENT_ONLY,
    initial_reason := .clientOnlyNoAssets,
    final_classification := .CLIENT_ONLY,
    was_corrected := false, correction_reason := none }

def w8map : Dict ModRecord := [("a.jar", w8recU), ("b.jar", w8recC)]

def w8idx : Dict String := [("u", "a.jar")]

def w8names : List String := ["a.jar", "b.jar"]

theorem corrector_idempotent_witness :
    ((∀ p ∈ w8map,
        p.2.final_classification = p.2.initial_classification ∧
        p.2.was_corrected = false) ∧
     (dkeys w8map).Nodup ∧
     w8names.Nodup ∧
     depsStable w8map w8idx w8names = true) ∧
    runCorrection (resetInitial (runCorrection w8map w8idx w8names).1)
        w8idx w8names =
      (resetInitial (runCorrection w8map w8idx w8names).1, 0) :=
  ⟨⟨by decide, by decide, by decide, by decide⟩,
   corrector_idempotent w8map w8idx w8names
     (by decide) (by decide) (by decide) (by decide)⟩

end DistChecker
